import Mathlib

/-!
Verification of the PEXT (parallel bit extract) engine and k-mer extraction
of the fisk repository, against its natural-language specification.

Machine integers are modelled as `Nat` with explicit `% 2 ^ 64` (resp.
`% 2 ^ 32`, `% 2 ^ 8`) wherever the C++ code can wrap.  Bounded source
loops (`while (mask)`, `for (i = 0; i < 8; ++i)`, the bit scan up to 64)
are embedded with an explicit fuel argument that dominates the iteration
bound of the source loop, so that every definition is executable by the
kernel.  Fallible code returns `Except` or `Option`; in particular an
out-of-range read of a fixed-size `std::array` (undefined behaviour in
C++) surfaces as `none`.
-/

namespace Fisk

/-! ## Ground-truth PEXT semantics (spec section 4.2)

The reference semantics: let `b0 < b1 < ... < b(n-1)` be the positions
(low to high) where the mask has a 1; bit `i` of the result equals bit
`b_i` of the value for `i < n`, and all higher bits are 0. -/

/-- The positions (low to high) of the set bits of a 64-bit mask. -/
def maskBits (m : Nat) : List Nat :=
  (List.range 64).filter (fun i => m.testBit i)

/-- Number of set bits of a 64-bit word (`std::popcount` on `uint64_t`). -/
def popcount64 (m : Nat) : Nat :=
  (maskBits m).length

/-- Assemble a number from a little-endian list of bits. -/
def ofBools : List Bool → Nat
  | [] => 0
  | b :: l => b.toNat + 2 * ofBools l

/-- The ground-truth PEXT function: bit `i` of the result is the bit of
`v` at the `i`-th lowest set position of `m`. -/
def pextSpec (v m : Nat) : Nat :=
  ofBools ((maskBits m).map (fun p => v.testBit p))

/-- The PEXT contract of spec section 4.2, stated positionally: with
`b0 < b1 < ...` the set positions of `m`, bit `i` of `r` is bit `b_i` of
`v` for `i < n`, and bits `n` and above of `r` are 0. -/
def PextContract (v m r : Nat) : Prop :=
  (∀ i, (h : i < ((List.range 64).filter (fun j => m.testBit j)).length) →
    r.testBit i = v.testBit (((List.range 64).filter (fun j => m.testBit j)).get ⟨i, h⟩)) ∧
  (∀ i, ((List.range 64).filter (fun j => m.testBit j)).length ≤ i → r.testBit i = false)

/-! ## Scalar bit-loop strategy (`pext_sw_bitloop_u64`, and the 32-bit
inner loop of `pext_sw_split32_u64`)

The C++ loop, at word width `w` (64 resp. 32):

    while (mask) {
        lsb = mask & (~mask + 1);
        out |= (x & lsb) ? out_bit : 0;
        mask ^= lsb;
        out_bit <<= 1;
    }

`~mask + 1` at width `w` is `(2 ^ w - mask) % 2 ^ w`.  Each iteration
clears one set bit of `mask`, so `w` iterations of fuel dominate the
loop for any `mask < 2 ^ w`. -/

def pextBitloopGo (w x : Nat) : Nat → Nat → Nat → Nat → Nat
  | 0, _, out, _ => out
  | fuel + 1, mask, out, out_bit =>
    if mask = 0 then out
    else
      let lsb := mask &&& ((2 ^ w - mask) % 2 ^ w)
      let out := if x &&& lsb ≠ 0 then out ||| out_bit else out
      pextBitloopGo w x fuel (mask ^^^ lsb) out ((out_bit <<< 1) % 2 ^ w)

/-- `pext_sw_bitloop_u64`: the classic extract-and-pack bit loop. -/
def pext_sw_bitloop_u64 (x mask : Nat) : Nat :=
  pextBitloopGo 64 x 64 mask 0 1

/-- `pext_sw_split32_u64`: runs the bit loop on the two 32-bit halves and
recombines, shifting the high result by `popcount` of the low mask half. -/
def pext_sw_split32_u64 (x mask : Nat) : Nat :=
  let x_lo := x % 2 ^ 32
  let x_hi := (x >>> 32) % 2 ^ 32
  let m_lo := mask % 2 ^ 32
  let m_hi := (mask >>> 32) % 2 ^ 32
  let out_lo := pextBitloopGo 32 x_lo 32 m_lo 0 1
  let shift := popcount64 m_lo
  let out_hi := pextBitloopGo 32 x_hi 32 m_hi 0 1
  out_lo ||| (out_hi <<< shift)

/-! ## Byte-table strategy (`PextTable8`, `pext_sw_table8_u64`)

The table entry for a byte mask `m` and byte value `x` is computed by the
construction loop of `PextTable8`:

    for (b = 0; b < 8; ++b) {
        bit = 1 << b;
        if (m & bit) { if (x & bit) out |= out_bit; out_bit <<= 1; }
    }

and the per-byte popcount by `c += (m >> b) & 1` over `b < 8`. -/

def pextByteGo (m x : Nat) : Nat → Nat → Nat → Nat → Nat
  | 0, _, out, _ => out
  | fuel + 1, b, out, out_bit =>
    if b < 8 then
      let bit := 1 <<< b
      if m &&& bit ≠ 0 then
        let out := if x &&& bit ≠ 0 then out ||| out_bit else out
        pextByteGo m x fuel (b + 1) out ((out_bit <<< 1) % 2 ^ 8)
      else
        pextByteGo m x fuel (b + 1) out out_bit
    else out

/-- One entry of the `PextTable8::table` lookup table. -/
def pextByte (m x : Nat) : Nat :=
  pextByteGo m x 8 0 0 1

def popcnt8Go (m : Nat) : Nat → Nat → Nat → Nat
  | 0, _, c => c
  | fuel + 1, b, c =>
    if b < 8 then popcnt8Go m fuel (b + 1) (c + ((m >>> b) &&& 1))
    else c

/-- One entry of the `PextTable8::popcnt` table. -/
def popcnt8 (m : Nat) : Nat :=
  popcnt8Go m 8 0 0

def table8Go (x mask : Nat) : Nat → Nat → Nat → Nat → Nat
  | 0, _, out, _ => out
  | fuel + 1, i, out, shift =>
    if i < 8 then
      let mm := (mask >>> (8 * i)) % 2 ^ 8
      let xx := (x >>> (8 * i)) % 2 ^ 8
      let part := pextByte mm xx
      table8Go x mask fuel (i + 1) (out ||| (part <<< shift)) (shift + popcnt8 mm)
    else out

/-- `pext_sw_table8_u64`: processes value and mask in 8 byte chunks using
the precomputed byte table and a running shift accumulator. -/
def pext_sw_table8_u64 (x mask : Nat) : Nat :=
  table8Go x mask 8 0 0 0

/-! ## Block-table strategy (`PextBlockTable`,
`pext_sw_block_table_preprocess_u64`, `pext_sw_block_table_u64`)

The table holds one entry per run of consecutive 1-bits of the mask:
a mask selecting the run at its original positions, and the right shift
moving it to its packed output position.  The C++ type is a pair of
`std::array<std::uint64_t, 32>`, zero-initialised; we model the two
arrays as lists of length 32. -/

structure PextBlockTable where
  masks : List Nat
  shifts : List Nat
  deriving DecidableEq

/-- Helper of the preprocessing: build a contiguous run mask of length
`len` at bit position `start` (`make_run_mask64` in the source). -/
def make_run_mask64 (start len : Nat) : Nat :=
  if len = 0 then 0
  else if 64 ≤ len then 2 ^ 64 - 1
  else ((1 <<< len) - 1) <<< start

/-- The inner scan `while (bit < 64 && ((mask >> bit) & 1) == 1) ++bit;`
of the preprocessing, with fuel dominating the at most 64 steps. -/
def findRunEnd (mask : Nat) : Nat → Nat → Nat
  | 0, bit => bit
  | fuel + 1, bit =>
    if bit < 64 ∧ (mask >>> bit) &&& 1 = 1 then findRunEnd mask fuel (bit + 1)
    else bit

/-- The outer `while (bit < 64)` loop of
`pext_sw_block_table_preprocess_u64`.  Each iteration advances `bit` by
at least one, so 65 units of fuel dominate the loop started at 0. -/
def preprocessGo (mask : Nat) :
    Nat → Nat → Nat → Nat → PextBlockTable → Except String PextBlockTable
  | 0, _, _, _, table => .ok table
  | fuel + 1, bit, out_pos, arr_idx, table =>
    if bit < 64 then
      if (mask >>> bit) &&& 1 = 0 then
        preprocessGo mask fuel (bit + 1) out_pos arr_idx table
      else
        let start := bit
        let bit := findRunEnd mask 64 bit
        let len := (bit - 1) - start + 1
        let block_mask := make_run_mask64 start len
        let shift := start - out_pos
        if arr_idx = 32 then
          .error "pext_sw_block_table_preprocess_u64 with arr_idx == 32"
        else
          preprocessGo mask fuel bit (out_pos + len) (arr_idx + 1)
            ⟨table.masks.set arr_idx block_mask, table.shifts.set arr_idx shift⟩
    else .ok table

/-- `pext_sw_block_table_preprocess_u64`: decompose the mask into runs of
consecutive 1-bits, one table entry per run; throws (models: returns
`.error`) when a 33rd run is found. -/
def pext_sw_block_table_preprocess_u64 (mask : Nat) : Except String PextBlockTable :=
  preprocessGo mask 65 0 0 0 ⟨List.replicate 32 0, List.replicate 32 0⟩

/-- The loop `while (pb.masks[i]) { res |= (x & pb.masks[i]) >> pb.shifts[i]; ++i; }`
of `pext_sw_block_table_u64`.  Array reads are total (`getElem?`); a read
past the end of the 32-entry array is undefined behaviour in the C++
source and yields `none` here.  Fuel `pb.masks.length + 1` dominates the
loop since `i` grows by one per iteration. -/
def blockApplyGo (x : Nat) (pb : PextBlockTable) : Nat → Nat → Nat → Option Nat
  | 0, _, _ => none
  | fuel + 1, i, res =>
    match pb.masks[i]? with
    | none => none
    | some mi =>
      if mi = 0 then some res
      else
        match pb.shifts[i]? with
        | none => none
        | some si => blockApplyGo x pb fuel (i + 1) (res ||| ((x &&& mi) >>> si))

/-- `pext_sw_block_table_u64`: apply a preprocessed block table. -/
def pext_sw_block_table_u64 (x : Nat) (pb : PextBlockTable) : Option Nat :=
  blockApplyGo x pb (pb.masks.length + 1) 0 0

/-! ## Specification-side run decomposition

The claims about the block table speak of the maximal runs of
consecutive 1-bits of the mask, in increasing bit-position order.  We
obtain them by grouping the ascending list of set-bit positions into
maximal blocks of consecutive integers; a run is a `(start, length)`
pair. -/

/-- Group an ascending list of bit positions into maximal runs of
consecutive positions, as `(start, length)` pairs. -/
def runsFromBits : List Nat → List (Nat × Nat)
  | [] => []
  | p :: ps =>
    match runsFromBits ps with
    | [] => [(p, 1)]
    | (s, l) :: rs => if p + 1 = s then (p, l + 1) :: rs else (p, 1) :: (s, l) :: rs

/-- The maximal 1-runs of a 64-bit mask, in increasing position order. -/
def runsOf (m : Nat) : List (Nat × Nat) :=
  runsFromBits (maskBits m)

/-- The mask selecting one run: `((1 << length) - 1) << start` (exact in
`Nat`, as in the spec formula). -/
def runMaskOf (r : Nat × Nat) : Nat :=
  ((1 <<< r.2) - 1) <<< r.1

/-- The expected shift entries: each run is shifted right by
`start - out_pos`, where `out_pos` is the total number of 1-bits in all
prior runs (the accumulator argument). -/
def shiftsSpec (acc : Nat) : List (Nat × Nat) → List Nat
  | [] => []
  | (s, l) :: rs => (s - acc) :: shiftsSpec (acc + l) rs

/-! ## InstLatX64 PEXT emulation (`pext_instlatx64.hpp`)

Primitives: `bextr_u64`, `blsr_u64` are direct transcriptions.
`std::countr_zero` on a nonzero `uint64_t` is the position of the lowest
set bit (64 for input 0); `std::countl_zero` is the number of zero bits
above the highest set bit (64 for input 0); we read both positions off
the ascending set-bit list.  `~y` on `uint64_t` is `(2 ^ 64 - 1) ^^^ y`. -/

/-- `bextr_u64`: extract `len` bits starting at `start`, right-aligned. -/
def bextr_u64 (x start len : Nat) : Nat :=
  if len = 0 then 0
  else if 64 ≤ len then x >>> start
  else (x >>> start) &&& ((1 <<< len) - 1)

/-- `blsr_u64`: clear the lowest set bit. -/
def blsr_u64 (x : Nat) : Nat :=
  x &&& (x - 1)

/-- `std::countr_zero` on `uint64_t`: the position of the lowest set bit,
64 when the input is 0. -/
def countr_zero64 (m : Nat) : Nat :=
  if m = 0 then 64 else (maskBits m).headD 0

/-- `std::countl_zero` on `uint64_t`: the number of leading zero bits
above the highest set bit, 64 when the input is 0. -/
def countl_zero64 (m : Nat) : Nat :=
  if m = 0 then 64 else 63 - (maskBits m).getLastD 0

/-- Two-complement NOT at 64 bits. -/
def not64 (y : Nat) : Nat :=
  (2 ^ 64 - 1) ^^^ y

/-- The closed-form specialized cases of `pext64_emu` (switch cases 0
through 7, driven by `popcount`).  The default case (popcount at least
8) uses the 128-bit carry-less multiply path and is outside the scope of
the claims; it is not modelled and yields `none`. -/
def pext64_emu (v m : Nat) : Option Nat :=
  let pc := popcount64 m
  match pc with
  | 0 => some 0
  | 1 => some (if v &&& m ≠ 0 then 1 else 0)
  | 2 =>
    let msb := bextr_u64 v (63 - countl_zero64 m) 1
    let lsb := bextr_u64 v (countr_zero64 m) 1
    some ((msb <<< 1) ||| lsb)
  | 3 =>
    let msb := bextr_u64 v (63 - countl_zero64 m) 1
    let lsb := bextr_u64 v (countr_zero64 m) 1
    let m := blsr_u64 m
    let csb := bextr_u64 v (countr_zero64 m) 1
    some ((msb <<< 2) ||| (csb <<< 1) ||| lsb)
  | 4 =>
    let lz1 := 63 - countl_zero64 m
    let tz1 := countr_zero64 m
    let _m := m &&& not64 ((1 <<< lz1) ||| (1 <<< tz1))
    let msb1 := bextr_u64 v lz1 1
    let lsb1 := bextr_u64 v tz1 1
    let ret := (msb1 <<< 3) ||| lsb1
    let msb0 := bextr_u64 v (63 - countl_zero64 _m) 1
    let lsb0 := bextr_u64 v (countr_zero64 _m) 1
    some (ret ||| ((msb0 <<< 2) ||| (lsb0 <<< 1)))
  | 5 =>
    let lz1 := 63 - countl_zero64 m
    let tz1 := countr_zero64 m
    let m1 := m &&& not64 ((1 <<< lz1) ||| (1 <<< tz1))
    let msb1 := bextr_u64 v lz1 1
    let lsb1 := bextr_u64 v tz1 1
    let lz0 := 63 - countl_zero64 m1
    let tz0 := countr_zero64 m1
    let m2 := m1 &&& not64 ((1 <<< lz0) ||| (1 <<< tz0))
    let ret := (msb1 <<< 4) ||| lsb1
    let msb0 := bextr_u64 v lz0 1
    let lsb0 := bextr_u64 v tz0 1
    let ret := ret ||| ((msb0 <<< 3) ||| (lsb0 <<< 1))
    let csb := bextr_u64 v (countr_zero64 m2) 1
    some (ret ||| (csb <<< 2))
  | 6 =>
    let lz2 := 63 - countl_zero64 m
    let tz2 := countr_zero64 m
    let msb2 := bextr_u64 v lz2 1
    let lsb2 := bextr_u64 v tz2 1
    let m1 := m &&& not64 ((1 <<< lz2) ||| (1 <<< tz2))
    let lz1 := 63 - countl_zero64 m1
    let tz1 := countr_zero64 m1
    let ret := (msb2 <<< 5) ||| lsb2
    let msb1 := bextr_u64 v lz1 1
    let lsb1 := bextr_u64 v tz1 1
    let m2 := m1 &&& not64 ((1 <<< lz1) ||| (1 <<< tz1))
    let ret := ret ||| ((msb1 <<< 4) ||| (lsb1 <<< 1))
    let msb0 := bextr_u64 v (63 - countl_zero64 m2) 1
    let lsb0 := bextr_u64 v (countr_zero64 m2) 1
    some (ret ||| ((msb0 <<< 3) ||| (lsb0 <<< 2)))
  | 7 =>
    let lz2 := 63 - countl_zero64 m
    let tz2 := countr_zero64 m
    let msb2 := bextr_u64 v lz2 1
    let lsb2 := bextr_u64 v tz2 1
    let m1 := m &&& not64 ((1 <<< lz2) ||| (1 <<< tz2))
    let lz1 := 63 - countl_zero64 m1
    let tz1 := countr_zero64 m1
    let ret := (msb2 <<< 6) ||| lsb2
    let msb1 := bextr_u64 v lz1 1
    let lsb1 := bextr_u64 v tz1 1
    let m2 := m1 &&& not64 ((1 <<< lz1) ||| (1 <<< tz1))
    let lz0 := 63 - countl_zero64 m2
    let tz0 := countr_zero64 m2
    let ret := ret ||| ((msb1 <<< 5) ||| (lsb1 <<< 1))
    let msb0 := bextr_u64 v lz0 1
    let lsb0 := bextr_u64 v tz0 1
    let m3 := m2 &&& not64 ((1 <<< lz0) ||| (1 <<< tz0))
    let ret := ret ||| ((msb0 <<< 4) ||| (lsb0 <<< 2))
    let csb := bextr_u64 v (countr_zero64 m3) 1
    some (ret ||| (csb <<< 3))
  | _ => none

/-! ## AdaptivePext (`utils.hpp`)

The tuning benchmark of `tune_to_fastest_mode_` runs every candidate
mode over a shared random buffer, obtaining per-candidate results: an
accumulated sum (`accu`, a `uint64_t`) and a wall-clock time (a
`double`).  The loop logic is embedded over an abstract list of
per-candidate measurement outcomes, one `(mode, accu, time)` triple per
candidate; times are modelled as rationals (finite floating-point
values), and the initial `best_time` of positive infinity as `none`. -/

inductive ExtractMode where
  | kAutomatic
  | kPext
  | kByteTable
  | kBlockTable
  | kBlockTableUnrolled2
  | kBlockTableUnrolled4
  | kBlockTableUnrolled8
  deriving DecidableEq

/-- The candidate modes tried by the tuning loop: `kPext` through
`kBlockTableUnrolled8` when BMI2 hardware is available, otherwise
`kByteTable` through `kBlockTableUnrolled8`. -/
def candidateModes (bmi2 : Bool) : List ExtractMode :=
  if bmi2 then
    [.kPext, .kByteTable, .kBlockTable,
     .kBlockTableUnrolled2, .kBlockTableUnrolled4, .kBlockTableUnrolled8]
  else
    [.kByteTable, .kBlockTable,
     .kBlockTableUnrolled2, .kBlockTableUnrolled4, .kBlockTableUnrolled8]

/-- The body of the benchmarking loop of `tune_to_fastest_mode_`: for
each candidate, update `best_accu` if it is still 0, throw on a
mismatch, and take the candidate as the new best if it was faster. -/
def tuneGo :
    List (ExtractMode × Nat × ℚ) → ExtractMode → Option ℚ → Nat →
    Except String (ExtractMode × Nat)
  | [], best_mode, _, best_accu => .ok (best_mode, best_accu)
  | (m, accu, time) :: rest, best_mode, best_time, best_accu =>
    let best_accu := if best_accu = 0 then accu else best_accu
    if best_accu ≠ accu then
      .error "PEXT benchmarking with inconsistent results for different methods."
    else
      if (match best_time with | none => true | some bt => decide (time < bt)) then
        tuneGo rest m (some time) accu
      else
        tuneGo rest best_mode best_time best_accu

/-- `tune_to_fastest_mode_` for a given list of per-candidate
measurement outcomes: starts from `best_mode = kAutomatic`,
`best_time = infinity`, `best_accu = 0`, and returns the selected mode
(and final accumulator) unless a consistency error is thrown. -/
def tune_to_fastest_mode_ (meas : List (ExtractMode × Nat × ℚ)) :
    Except String (ExtractMode × Nat) :=
  tuneGo meas .kAutomatic none 0

/-- The member-function pointer `pext_func_`, as a tag for the wrapper
it points to. -/
inductive PextFuncTag where
  | dummy
  | hwBmi2
  | byteTable
  | blockTable
  | blockTableUnrolled2
  | blockTableUnrolled4
  | blockTableUnrolled8
  deriving DecidableEq

/-- `set_pext_func_`: bind the function pointer for a mode; setting
`kAutomatic` throws. -/
def set_pext_func_ (mode : ExtractMode) : Except String PextFuncTag :=
  match mode with
  | .kAutomatic => .error "Cannot set adaptive pext function to automatic."
  | .kPext => .ok .hwBmi2
  | .kByteTable => .ok .byteTable
  | .kBlockTable => .ok .blockTable
  | .kBlockTableUnrolled2 => .ok .blockTableUnrolled2
  | .kBlockTableUnrolled4 => .ok .blockTableUnrolled4
  | .kBlockTableUnrolled8 => .ok .blockTableUnrolled8

/-- The state of an `AdaptivePext` instance: mode, bound function
pointer, mask, and block table. -/
structure AdaptivePextState where
  mode : ExtractMode
  pextFunc : PextFuncTag
  mask : Nat
  blockTable : PextBlockTable

/-- The default constructor `AdaptivePext()`: binds the function pointer
to `pext_dummy_`.  The members `mode_` and `mask_` are left
uninitialised by the C++ constructor and are modelled as arbitrary junk
values; `block_table_` is zero-initialised. -/
def AdaptivePext_default (junkMode : ExtractMode) (junkMask : Nat) : AdaptivePextState :=
  { mode := junkMode
    pextFunc := .dummy
    mask := junkMask
    blockTable := ⟨List.replicate 32 0, List.replicate 32 0⟩ }

/-- Modelled from the spec: the `HardwareIntrinsic` strategy
(`pext_hw_bmi2_u64`, a single `_pext_u64` invocation; the instruction
itself is not in the sources) computes the ground-truth PEXT of section
4.2. -/
def pext_hw_model (v mask : Nat) : Nat :=
  pextSpec v mask

/-- Modelled from the spec: the `Unrolled2/4/8` block-table appliers
(`pext_sw_block_table_u64_unrolled2/4/8`, whose definitions are not in
the sources; only their callers are) are functionally identical to the
1x applier `pext_sw_block_table_u64`. -/
def pext_sw_block_table_u64_unrolled_model (x : Nat) (pb : PextBlockTable) : Option Nat :=
  pext_sw_block_table_u64 x pb

/-- `operator()` of `AdaptivePext`: dispatch through the bound function
pointer.  The `pext_dummy_` wrapper throws; an out-of-bounds read in a
block-table applier (undefined behaviour) also surfaces as an error. -/
def AdaptivePext_apply (st : AdaptivePextState) (value : Nat) : Except String Nat :=
  match st.pextFunc with
  | .dummy => .error "Invalid call to operator() on default-constructed AdaptivePext instance"
  | .hwBmi2 => .ok (pext_hw_model value st.mask)
  | .byteTable => .ok (pext_sw_table8_u64 value st.mask)
  | .blockTable =>
    match pext_sw_block_table_u64 value st.blockTable with
    | some r => .ok r
    | none => .error "out-of-bounds array read"
  | .blockTableUnrolled2 | .blockTableUnrolled4 | .blockTableUnrolled8 =>
    match pext_sw_block_table_u64_unrolled_model value st.blockTable with
    | some r => .ok r
    | none => .error "out-of-bounds array read"

/-- The mask constructor `AdaptivePext(mask, mode)` in automatic mode:
build the block table, run the tuning benchmark (over the abstract list
of per-candidate measurement outcomes), then bind the selected mode. -/
def AdaptivePext_construct_automatic (mask : Nat)
    (meas : List (ExtractMode × Nat × ℚ)) : Except String AdaptivePextState := do
  let pb ← pext_sw_block_table_preprocess_u64 mask
  let (best_mode, _) ← tune_to_fastest_mode_ meas
  let f ← set_pext_func_ best_mode
  return { mode := best_mode, pextFunc := f, mask := mask, blockTable := pb }

/-! ## K-mer extraction (`kmer.hpp`)

Sequences are lists of characters; the callback of the C++ template is
modelled by collecting the emitted k-mer values in a list.  `enc` is the
per-character two-bit encoding function. -/

/-- The first-window build loop of `for_each_kmer_2bit`:
`kmer = (kmer << 2) | enc(data[i])` over the first `k` characters
(arithmetic on `uint64_t`). -/
def kmerBuild (enc : Char → Nat) (kmer : Nat) : List Char → Nat
  | [] => kmer
  | c :: cs => kmerBuild enc (((kmer <<< 2) % 2 ^ 64) ||| enc c) cs

/-- The sliding loop of `for_each_kmer_2bit`:
`kmer = ((kmer << 2) & mask) | enc(data[i + k - 1])` for
`i = 1 .. n - k`, emitting each k-mer.  The remaining characters
`cs` are those from position `k` onward. -/
def kmerSlide (enc : Char → Nat) (mask : Nat) : Nat → List Char → List Nat
  | _, [] => []
  | kmer, c :: cs =>
    let kmer := (((kmer <<< 2) % 2 ^ 64) &&& mask) ||| enc c
    kmer :: kmerSlide enc mask kmer cs

/-- `for_each_kmer_2bit`: rolling-window iteration of all k-mers of a
sequence, as 2-bit packed `uint64_t` values. -/
def for_each_kmer_2bit (seq : List Char) (k : Nat) (enc : Char → Nat) :
    Except String (List Nat) :=
  if k = 0 ∨ 32 < k then
    .error "Invalid call to k-mer extraction with k not in [1, 32]"
  else if seq.length < k then
    .ok []
  else
    let mask := if k = 32 then 2 ^ 64 - 1 else (1 <<< (2 * k)) - 1
    let first := kmerBuild enc 0 (seq.take k)
    .ok (first :: kmerSlide enc mask first (seq.drop k))

/-- The per-window extraction loop of `for_each_kmer_2bit_reextract`:
positions `i = 0 .. n - k`, each window encoded from scratch. -/
def kmerReextractGo (enc : Char → Nat) (k : Nat) : List Char → Nat → List Nat
  | seq, count =>
    match count with
    | 0 => []
    | count + 1 =>
      kmerBuild enc 0 (seq.take k) :: kmerReextractGo enc k (seq.drop 1) count

/-- `for_each_kmer_2bit_reextract`: same iteration, but each k-mer is
extracted separately from its window. -/
def for_each_kmer_2bit_reextract (seq : List Char) (k : Nat) (enc : Char → Nat) :
    Except String (List Nat) :=
  if k = 0 ∨ 32 < k then
    .error "Invalid call to k-mer extraction with k not in [1, 32]"
  else if seq.length < k then
    .ok []
  else
    .ok (kmerReextractGo enc k seq (seq.length - k + 1))

/-- Well-formedness of a run list: starting from lower bound `lb`, every
run has positive length and each run ends strictly below the next start,
with a gap of at least one zero bit. -/
def RunsWF : Nat → List (Nat × Nat) → Prop
  | _, [] => True
  | lb, (s, l) :: rs => lb ≤ s ∧ 1 ≤ l ∧ RunsWF (s + l + 1) rs

/-- A position is covered by a run list when some run contains it. -/
def coveredBy (rs : List (Nat × Nat)) (i : Nat) : Prop :=
  ∃ r ∈ rs, r.1 ≤ i ∧ i < r.1 + r.2

/-- Total length of the runs of a run list. -/
def lensSum (rs : List (Nat × Nat)) : Nat :=
  (rs.map (fun r => r.2)).sum

/-! ## Toolkit: set-bit position lists -/

theorem mem_maskBits {m i : Nat} : i ∈ maskBits m ↔ i < 64 ∧ m.testBit i := by
  simp [maskBits, List.mem_filter, List.mem_range]

theorem maskBits_pairwise (m : Nat) : (maskBits m).Pairwise (· < ·) :=
  List.Pairwise.filter _ (List.pairwise_lt_range 64)

theorem testBit_high {m i : Nat} (h : m < 2 ^ 64) (hi : 64 ≤ i) : m.testBit i = false :=
  Nat.testBit_lt_two_pow (lt_of_lt_of_le h (Nat.pow_le_pow_right (by norm_num) hi))

theorem mem_maskBits_of_lt {m : Nat} (h : m < 2 ^ 64) {i : Nat} :
    i ∈ maskBits m ↔ m.testBit i := by
  rw [mem_maskBits]
  refine ⟨fun hx => hx.2, fun hx => ⟨?_, hx⟩⟩
  by_contra hlt
  rw [testBit_high h (le_of_not_lt hlt)] at hx
  exact Bool.false_ne_true hx

/-- Strictly ascending lists of naturals with the same members are equal. -/
theorem sortedLt_ext {l₁ l₂ : List Nat} (h₁ : l₁.Pairwise (· < ·))
    (h₂ : l₂.Pairwise (· < ·)) (h : ∀ x, x ∈ l₁ ↔ x ∈ l₂) : l₁ = l₂ := by
  induction l₁ generalizing l₂ with
  | nil =>
    cases l₂ with
    | nil => rfl
    | cons b t => exact absurd ((h b).2 (by simp)) (by simp)
  | cons a t ih =>
    cases l₂ with
    | nil => exact absurd ((h a).1 (by simp)) (by simp)
    | cons b t₂ =>
      rcases List.pairwise_cons.1 h₁ with ⟨ha, ht⟩
      rcases List.pairwise_cons.1 h₂ with ⟨hb, ht₂⟩
      have hab : a = b := by
        have h1 : a ∈ b :: t₂ := (h a).1 (by simp)
        have h2 : b ∈ a :: t := (h b).2 (by simp)
        rcases List.mem_cons.1 h1 with rfl | h1
        · rfl
        · rcases List.mem_cons.1 h2 with rfl | h2
          · rfl
          · exact absurd (lt_trans (hb a h1) (ha b h2)) (lt_irrefl b)
      subst hab
      have hmem : ∀ x, x ∈ t ↔ x ∈ t₂ := by
        intro x
        constructor
        · intro hx
          rcases List.mem_cons.1 ((h x).1 (List.mem_cons_of_mem a hx)) with rfl | h2
          · exact absurd (ha x hx) (lt_irrefl x)
          · exact h2
        · intro hx
          rcases List.mem_cons.1 ((h x).2 (List.mem_cons_of_mem a hx)) with rfl | h2
          · exact absurd (hb x hx) (lt_irrefl x)
          · exact h2
      rw [ih ht ht₂ hmem]

theorem maskBits_zero : maskBits 0 = [] := by decide

theorem maskBits_lt_of_mem {m i : Nat} (h : i ∈ maskBits m) : i < 64 :=
  (mem_maskBits.1 h).1

/-- Splitting the position list of a mask at bit position `s`. -/
theorem maskBits_split {m : Nat} (hm : m < 2 ^ 64) {s : Nat} (hs : s ≤ 64) :
    maskBits m = maskBits (m % 2 ^ s) ++ (maskBits (m >>> s)).map (· + s) := by
  apply sortedLt_ext (maskBits_pairwise m)
  · apply List.pairwise_append.2
    refine ⟨maskBits_pairwise _, ?_, ?_⟩
    · exact (maskBits_pairwise _).map _ (fun a b hab => by omega)
    · intro a haa b hbb
      rcases List.mem_map.1 hbb with ⟨q, _, rfl⟩
      have h2 := (mem_maskBits.1 haa).2
      rw [Nat.testBit_mod_two_pow] at h2
      simp only [Bool.and_eq_true, decide_eq_true_eq] at h2
      omega
  · intro x
    simp only [List.mem_append, List.mem_map, mem_maskBits, Nat.testBit_mod_two_pow,
      Nat.testBit_shiftRight, Bool.and_eq_true, decide_eq_true_eq]
    constructor
    · rintro ⟨hx, hb⟩
      by_cases hsx : x < s
      · exact Or.inl ⟨hx, hsx, hb⟩
      · refine Or.inr ⟨x - s, ⟨by omega, ?_⟩, by omega⟩
        rwa [Nat.add_sub_cancel' (le_of_not_lt hsx)]
    · rintro (⟨hx, _, hb⟩ | ⟨q, ⟨_, hb⟩, rfl⟩)
      · exact ⟨hx, hb⟩
      · refine ⟨?_, by rwa [Nat.add_comm s q] at hb⟩
        have hb2 := hb
        rw [Nat.add_comm s q] at hb2
        by_contra hlt
        rw [testBit_high hm (by omega)] at hb2
        exact Bool.false_ne_true hb2

/-! ## Toolkit: `ofBools` -/

theorem ofBools_append (A B : List Bool) :
    ofBools (A ++ B) = ofBools A + ofBools B * 2 ^ A.length := by
  induction A with
  | nil => simp [ofBools]
  | cons b t ih =>
    show ofBools (b :: (t ++ B)) = ofBools (b :: t) + ofBools B * 2 ^ (t.length + 1)
    simp only [ofBools, ih]
    ring

theorem ofBools_lt (l : List Bool) : ofBools l < 2 ^ l.length := by
  induction l with
  | nil => simp [ofBools]
  | cons b t ih =>
    simp only [ofBools, List.length_cons, pow_succ]
    rcases b with _ | _ <;> simp [Bool.toNat] <;> omega

theorem testBit_ofBools (l : List Bool) (i : Nat) :
    (ofBools l).testBit i = l.getD i false := by
  induction l generalizing i with
  | nil => simp [ofBools]
  | cons b t ih =>
    cases i with
    | zero =>
      simp only [ofBools, Nat.testBit_zero, List.getD_cons_zero]
      rcases b with _ | _ <;> simp [Bool.toNat, Nat.add_mul_mod_self_left]
    | succ i =>
      have hdiv : ofBools (b :: t) / 2 = ofBools t := by
        rcases b with _ | _ <;> simp [ofBools, Bool.toNat] <;> omega
      rw [Nat.testBit_add_one, hdiv, ih]
      simp

/-! ## Toolkit: the ground-truth function and the positional contract -/

theorem pextSpec_testBit (v m i : Nat) :
    (pextSpec v m).testBit i = ((maskBits m).map (fun p => v.testBit p)).getD i false := by
  rw [pextSpec, testBit_ofBools]

theorem pextSpec_lt (v m : Nat) : pextSpec v m < 2 ^ popcount64 m := by
  have := ofBools_lt ((maskBits m).map (fun p => v.testBit p))
  simpa [pextSpec, popcount64] using this

theorem pextContract_iff (v m r : Nat) : PextContract v m r ↔ r = pextSpec v m := by
  have hbs : ((List.range 64).filter (fun j => m.testBit j)) = maskBits m := rfl
  constructor
  · rintro ⟨h1, h2⟩
    apply Nat.eq_of_testBit_eq
    intro i
    rw [pextSpec_testBit]
    by_cases hi : i < (maskBits m).length
    · rw [h1 i (by rwa [hbs]), List.getD_eq_getElem?_getD, List.getElem?_map,
        List.getElem?_eq_getElem hi]
      simp [List.get_eq_getElem, hbs]
    · rw [h2 i (by rw [hbs]; omega), List.getD_eq_getElem?_getD, List.getElem?_map,
        List.getElem?_eq_none (by simpa using Nat.le_of_not_lt hi)]
      simp
  · rintro rfl
    constructor
    · intro i h
      rw [pextSpec_testBit, List.getD_eq_getElem?_getD, List.getElem?_map,
        List.getElem?_eq_getElem (by rwa [hbs] at h)]
      simp [List.get_eq_getElem, hbs]
    · intro i h
      rw [pextSpec_testBit, List.getD_eq_getElem?_getD, List.getElem?_map,
        List.getElem?_eq_none (by rw [hbs] at h; simpa using h)]
      simp

theorem pextSpec_zero_mask (v : Nat) : pextSpec v 0 = 0 := by
  simp [pextSpec, maskBits_zero, ofBools]

/-! ## Toolkit: lowest set bit, `m - 1`, lowest-set-bit isolation -/

theorem maskBits_eq_nil_iff {m : Nat} (hm : m < 2 ^ 64) : maskBits m = [] ↔ m = 0 := by
  constructor
  · intro h
    apply Nat.eq_of_testBit_eq
    intro i
    simp only [Nat.zero_testBit]
    by_cases hi : i < 64
    · by_contra hb
      have : i ∈ maskBits m := mem_maskBits.2 ⟨hi, Bool.of_not_eq_false hb⟩
      simp [h] at this
    · exact testBit_high hm (by omega)
  · rintro rfl
    exact maskBits_zero

/-- Structure of a nonzero mask: the head of its position list is its
lowest set bit. -/
theorem maskBits_head_spec {m : Nat} (hm : m < 2 ^ 64) (h0 : m ≠ 0) :
    ∃ t rest, maskBits m = t :: rest ∧ m.testBit t = true ∧
      (∀ i, i < t → m.testBit i = false) ∧ (∀ q ∈ rest, t < q) := by
  rcases hl : maskBits m with _ | ⟨t, rest⟩
  · exact absurd ((maskBits_eq_nil_iff hm).1 hl) h0
  · refine ⟨t, rest, rfl, ?_, ?_, ?_⟩
    · exact (mem_maskBits.1 (hl ▸ List.mem_cons_self t rest)).2
    · intro i hi
      by_contra hb
      have hmem : i ∈ maskBits m := mem_maskBits_of_lt hm |>.2 (Bool.of_not_eq_false hb)
      rw [hl] at hmem
      rcases List.mem_cons.1 hmem with rfl | hmem
      · omega
      · have := (List.pairwise_cons.1 (hl ▸ maskBits_pairwise m)).1 i hmem
        omega
    · exact (List.pairwise_cons.1 (hl ▸ maskBits_pairwise m)).1

/-- Bits of `m - 1`: trailing zeros of `m` become ones, the lowest set
bit becomes zero, higher bits are unchanged. -/
theorem testBit_pred {m t : Nat} (ht : m.testBit t = true)
    (hlow : ∀ i, i < t → m.testBit i = false) (i : Nat) :
    (m - 1).testBit i = (decide (i < t) || (decide (t < i) && m.testBit i)) := by
  induction t generalizing m i with
  | zero =>
    have hodd : m % 2 = 1 := by
      have := ht
      rw [Nat.testBit_zero] at this
      exact of_decide_eq_true this
    cases i with
    | zero =>
      rw [Nat.testBit_zero]
      simp
      omega
    | succ i =>
      rw [Nat.testBit_add_one, Nat.testBit_add_one]
      have : (m - 1) / 2 = m / 2 := by omega
      rw [this]
      simp
  | succ t ih =>
    have heven : m % 2 = 0 := by
      have := hlow 0 (by omega)
      rw [Nat.testBit_zero] at this
      simpa using this
    have hm2 : m ≠ 0 := by
      intro h
      rw [h] at ht
      simp at ht
    have hge : 2 ≤ m := by omega
    have ht2 : (m / 2).testBit t = true := by rwa [Nat.testBit_div_two]
    have hlow2 : ∀ i, i < t → (m / 2).testBit i = false := by
      intro i hi
      rw [Nat.testBit_div_two]
      exact hlow (i + 1) (by omega)
    cases i with
    | zero =>
      rw [Nat.testBit_zero]
      simp
      omega
    | succ i =>
      rw [Nat.testBit_add_one, Nat.testBit_add_one]
      have hdiv : (m - 1) / 2 = m / 2 - 1 := by omega
      rw [hdiv, ih ht2 hlow2 i]
      simp [Nat.succ_lt_succ_iff]

/-- `mask & (~mask + 1)` at width `w` isolates the lowest set bit. -/
theorem lsb_isolate {w m t : Nat} (h0 : 0 < m) (hw : m < 2 ^ w)
    (ht : m.testBit t = true) (hlow : ∀ i, i < t → m.testBit i = false) :
    m &&& ((2 ^ w - m) % 2 ^ w) = 2 ^ t := by
  have htw : t < w := by
    have h1 : 2 ^ t ≤ m := Nat.testBit_implies_ge ht
    have := Nat.lt_of_le_of_lt h1 hw
    exact (Nat.pow_lt_pow_iff_right (by omega)).1 this
  have hmod : (2 ^ w - m) % 2 ^ w = 2 ^ w - m := Nat.mod_eq_of_lt (by omega)
  rw [hmod]
  apply Nat.eq_of_testBit_eq
  intro i
  rw [Nat.testBit_land]
  have h1 : 2 ^ w - m = 2 ^ w - ((m - 1) + 1) := by omega
  rw [h1, Nat.testBit_two_pow_sub_succ (by omega : m - 1 < 2 ^ w),
    testBit_pred ht hlow i, Nat.testBit_two_pow]
  rcases lt_trichotomy i t with h | rfl | h
  · rw [hlow i h]
    simp
    omega
  · rw [ht]
    simp [htw]
  · rcases hmi : m.testBit i with _ | _ <;> simp [hmi, h] <;> omega

/-- `x & 2 ^ t` as a single conditional bit. -/
theorem land_two_pow (x t : Nat) :
    x &&& 2 ^ t = (x.testBit t).toNat * 2 ^ t := by
  apply Nat.eq_of_testBit_eq
  intro i
  rw [Nat.testBit_land, Nat.mul_comm, Nat.testBit_mul_pow_two, Nat.testBit_bool_to_nat,
    Nat.testBit_two_pow]
  rcases Nat.lt_trichotomy i t with h | rfl | h
  · have h1 : decide (t = i) = false := by simp; omega
    have h2 : decide (i ≥ t) = false := by simp; omega
    rw [h1, h2]
    simp
  · simp
  · have h1 : decide (t = i) = false := by simp; omega
    have h2 : decide (i - t = 0) = false := by simp; omega
    rw [h1, h2]
    simp

theorem land_two_pow_ne_zero_iff (x t : Nat) :
    x &&& 2 ^ t ≠ 0 ↔ x.testBit t = true := by
  rw [land_two_pow]
  rcases hxi : x.testBit t with _ | _
  · simp
  · simpa using (Nat.two_pow_pos t).ne'

/-- Removing one set bit removes its position from the position list. -/
theorem maskBits_xor_pow {m t : Nat} (hm : m < 2 ^ 64) (ht : m.testBit t = true) :
    maskBits (m ^^^ 2 ^ t) = (maskBits m).filter (fun q => q ≠ t) := by
  have htw : t < 64 := by
    have h1 : 2 ^ t ≤ m := Nat.testBit_implies_ge ht
    have := Nat.lt_of_le_of_lt h1 hm
    exact (Nat.pow_lt_pow_iff_right (by omega)).1 this
  apply sortedLt_ext
  · exact maskBits_pairwise _
  · exact List.Pairwise.filter _ (maskBits_pairwise m)
  · intro x
    rw [List.mem_filter, mem_maskBits, mem_maskBits]
    rw [Nat.testBit_xor, Nat.testBit_two_pow]
    by_cases hx : x = t
    · subst hx
      rw [ht]
      simp
    · constructor
      · rintro ⟨hx64, hb⟩
        have hd : decide (t = x) = false := by simp [Ne.symm hx]
        rw [hd] at hb
        exact ⟨⟨hx64, by simpa using hb⟩, by simpa using hx⟩
      · rintro ⟨⟨hx64, hb⟩, _⟩
        have hd : decide (t = x) = false := by simp [Ne.symm hx]
        rw [hd]
        exact ⟨hx64, by simpa using hb⟩

/-- The little-endian bit recomposition ``(b + 2p) << j = (b << j) | (p << (j+1))``. -/
theorem shiftLeft_bit_cons (b : Bool) (p j : Nat) :
    (b.toNat + 2 * p) <<< j = (b.toNat <<< j) ||| (p <<< (j + 1)) := by
  have h1 : (b.toNat + 2 * p) <<< j = 2 ^ (j + 1) * p + b.toNat * 2 ^ j := by
    rw [Nat.shiftLeft_eq]
    ring
  have h2 : b.toNat * 2 ^ j < 2 ^ (j + 1) := by
    have : b.toNat ≤ 1 := Bool.toNat_le b
    have h3 : 2 ^ j > 0 := Nat.pos_pow_of_pos j (by omega)
    calc b.toNat * 2 ^ j ≤ 1 * 2 ^ j := Nat.mul_le_mul_right _ this
    _ < 2 ^ (j + 1) := by rw [Nat.one_mul, Nat.pow_succ]; omega
  rw [h1, Nat.mul_add_lt_is_or h2, Nat.shiftLeft_eq, Nat.shiftLeft_eq, Nat.mul_comm (2 ^ (j+1)),
    Nat.lor_comm]

/-! ## Correctness of the bit-loop strategies -/

theorem popcount64_le (m : Nat) : popcount64 m ≤ 64 := by
  have := List.length_filter_le (fun i => m.testBit i) (List.range 64)
  simpa [popcount64, maskBits] using this

theorem mem_maskBits_width {m s q : Nat} (hm : m < 2 ^ s) (hq : q ∈ maskBits m) : q < s := by
  have hb := (mem_maskBits.1 hq).2
  by_contra h
  rw [Nat.testBit_lt_two_pow (lt_of_lt_of_le hm
    (Nat.pow_le_pow_right (by norm_num) (le_of_not_lt h)))] at hb
  exact Bool.false_ne_true hb

/-- One step of the ground-truth function at the lowest set bit. -/
theorem pextSpec_step {x mask t : Nat} {rest : List Nat}
    (hl : maskBits mask = t :: rest) (hm : mask < 2 ^ 64) :
    pextSpec x mask = (x.testBit t).toNat + 2 * pextSpec x (mask ^^^ 2 ^ t) := by
  have ht : mask.testBit t = true :=
    (mem_maskBits.1 (hl ▸ List.mem_cons_self t rest)).2
  have hrest : maskBits (mask ^^^ 2 ^ t) = rest := by
    rw [maskBits_xor_pow hm ht, hl]
    have hgt := (List.pairwise_cons.1 (hl ▸ maskBits_pairwise mask)).1
    rw [List.filter_cons]
    simp only [decide_eq_true_eq]
    rw [if_neg (by simp)]
    apply List.filter_eq_self.2
    intro a ha
    simp only [decide_eq_true_eq]
    exact fun h => absurd (hgt a ha) (by omega)
  rw [pextSpec, pextSpec, hl, hrest, List.map_cons, ofBools]

theorem pextBitloopGo_spec (w x : Nat) (hw : w ≤ 64) :
    ∀ fuel mask out j, mask < 2 ^ w → popcount64 mask ≤ fuel →
      j + popcount64 mask ≤ w →
      pextBitloopGo w x fuel mask out ((2 ^ j) % 2 ^ w) =
        out ||| ((pextSpec x mask) <<< j) := by
  intro fuel
  induction fuel with
  | zero =>
    intro mask out j hm hpc _
    have hm64 : mask < 2 ^ 64 := lt_of_lt_of_le hm (Nat.pow_le_pow_right (by norm_num) hw)
    have : maskBits mask = [] :=
      List.length_eq_zero.1 (Nat.le_zero.1 (by simpa [popcount64] using hpc))
    have h0 : mask = 0 := (maskBits_eq_nil_iff hm64).1 this
    subst h0
    rw [pextBitloopGo]
    rw [pextSpec_zero_mask, Nat.zero_shiftLeft, Nat.or_zero]
  | succ fuel ih =>
    intro mask out j hm hpc hjw
    have hm64 : mask < 2 ^ 64 := lt_of_lt_of_le hm (Nat.pow_le_pow_right (by norm_num) hw)
    by_cases h0 : mask = 0
    · subst h0
      rw [pextBitloopGo, if_pos rfl, pextSpec_zero_mask, Nat.zero_shiftLeft, Nat.or_zero]
    · rcases maskBits_head_spec hm64 h0 with ⟨t, rest, hl, ht, hlow, _⟩
      have hpc1 : popcount64 mask = rest.length + 1 := by
        simp [popcount64, hl]
      have hjlt : j < w := by
        rw [hpc1] at hjw
        omega
      have hlsb : mask &&& ((2 ^ w - mask) % 2 ^ w) = 2 ^ t :=
        lsb_isolate (Nat.pos_of_ne_zero h0) hm ht hlow
      have htw : t < w := by
        have h1 : 2 ^ t ≤ mask := Nat.testBit_implies_ge ht
        exact (Nat.pow_lt_pow_iff_right (by omega)).1 (Nat.lt_of_le_of_lt h1 hm)
      have hmodj : (2 ^ j) % 2 ^ w = 2 ^ j :=
        Nat.mod_eq_of_lt (Nat.pow_lt_pow_right (by omega) hjlt)
      rw [pextBitloopGo, if_neg h0, hlsb]
      have hshift : ((((2 ^ j) % 2 ^ w) <<< 1) % 2 ^ w) = (2 ^ (j + 1)) % 2 ^ w := by
        rw [hmodj, Nat.shiftLeft_eq, pow_one, pow_succ]
      rw [hshift]
      have hmask' : mask ^^^ 2 ^ t < 2 ^ w :=
        Nat.xor_lt_two_pow hm (Nat.pow_lt_pow_right (by omega) htw)
      have hrest : maskBits (mask ^^^ 2 ^ t) = rest := by
        have := pextSpec_step (x := x) hl hm64
        rw [maskBits_xor_pow hm64 ht, hl, List.filter_cons]
        simp only [decide_eq_true_eq]
        rw [if_neg (by simp)]
        apply List.filter_eq_self.2
        intro a ha
        simp only [decide_eq_true_eq]
        have hgt := (List.pairwise_cons.1 (hl ▸ maskBits_pairwise mask)).1
        exact fun h => absurd (hgt a ha) (by omega)
      have hpc' : popcount64 (mask ^^^ 2 ^ t) = rest.length := by
        simp [popcount64, hrest]
      rw [ih (mask ^^^ 2 ^ t) _ (j + 1) hmask' (by omega) (by omega)]
      rw [pextSpec_step hl hm64, shiftLeft_bit_cons, ← Nat.or_assoc]
      congr 1
      rcases hxt : x.testBit t with _ | _
      · rw [if_neg (by simp [land_two_pow, hxt])]
        simp [Bool.toNat]
      · rw [if_pos ((land_two_pow_ne_zero_iff x t).2 hxt)]
        rw [hmodj]
        simp [Bool.toNat, Nat.one_shiftLeft]

/-- The 64-bit bit loop computes the ground-truth PEXT. -/
theorem pext_sw_bitloop_u64_eq (x mask : Nat) (hm : mask < 2 ^ 64) :
    pext_sw_bitloop_u64 x mask = pextSpec x mask := by
  have h := pextBitloopGo_spec 64 x (le_refl 64) 64 mask 0 0 hm (popcount64_le mask)
    (by simpa using popcount64_le mask)
  simp only [pow_zero] at h
  rw [pext_sw_bitloop_u64]
  rw [show (1 : Nat) = 1 % 2 ^ 64 by norm_num, h, Nat.shiftLeft_zero, Nat.zero_or]

theorem popcount64_le_width {m s : Nat} (hm : m < 2 ^ s) : popcount64 m ≤ s := by
  have hnd : (maskBits m).Nodup := (maskBits_pairwise m).imp (fun h => Nat.ne_of_lt h)
  have hsub : maskBits m ⊆ List.range s := by
    intro q hq
    exact List.mem_range.2 (mem_maskBits_width hm hq)
  have := (hnd.subperm hsub).length_le
  simpa [popcount64] using this

/-- The ground-truth function only reads the value at mask positions. -/
theorem pextSpec_value_congr {x y m : Nat}
    (h : ∀ p ∈ maskBits m, x.testBit p = y.testBit p) :
    pextSpec x m = pextSpec y m := by
  rw [pextSpec, pextSpec]
  exact congrArg ofBools (List.map_congr_left h)

theorem add_mul_pow_eq_or {a c : Nat} (b : Nat) (ha : a < 2 ^ c) :
    a + b * 2 ^ c = a ||| b * 2 ^ c := by
  have h := Nat.mul_add_lt_is_or ha b
  rw [Nat.mul_comm] at h
  rw [Nat.add_comm, h, Nat.lor_comm]

/-- Splitting the ground-truth function at bit position `s`. -/
theorem pextSpec_split (x mask s : Nat) (hm : mask < 2 ^ 64) (hs : s ≤ 64) :
    pextSpec x mask =
      pextSpec x (mask % 2 ^ s) |||
        ((pextSpec (x >>> s) (mask >>> s)) <<< popcount64 (mask % 2 ^ s)) := by
  rw [pextSpec, maskBits_split hm hs, List.map_append, ofBools_append, List.map_map]
  have hmap : ((maskBits (mask >>> s)).map ((fun p => x.testBit p) ∘ (· + s))) =
      (maskBits (mask >>> s)).map (fun q => (x >>> s).testBit q) := by
    apply List.map_congr_left
    intro q _
    simp only [Function.comp_apply, Nat.testBit_shiftRight]
    rw [Nat.add_comm]
  rw [hmap]
  have hlen : ((maskBits (mask % 2 ^ s)).map (fun p => x.testBit p)).length =
      popcount64 (mask % 2 ^ s) := by
    simp [popcount64]
  rw [hlen]
  have hbound : ofBools ((maskBits (mask % 2 ^ s)).map (fun p => x.testBit p)) <
      2 ^ popcount64 (mask % 2 ^ s) := by
    have := ofBools_lt ((maskBits (mask % 2 ^ s)).map (fun p => x.testBit p))
    rwa [hlen] at this
  rw [add_mul_pow_eq_or _ hbound]
  simp only [pextSpec, Nat.shiftLeft_eq]

/-- The split-halves strategy computes the ground-truth PEXT. -/
theorem pext_sw_split32_u64_eq (x mask : Nat) (hm : mask < 2 ^ 64) :
    pext_sw_split32_u64 x mask = pextSpec x mask := by
  have hlo : mask % 2 ^ 32 < 2 ^ 32 := Nat.mod_lt _ (by norm_num)
  have hhi0 : mask >>> 32 < 2 ^ 32 := by
    rw [Nat.shiftRight_eq_div_pow]
    omega
  have hhimod : (mask >>> 32) % 2 ^ 32 = mask >>> 32 := Nat.mod_eq_of_lt hhi0
  rw [pext_sw_split32_u64]
  simp only [hhimod]
  rw [show (1 : Nat) = 2 ^ 0 % 2 ^ 32 from by norm_num]
  rw [pextBitloopGo_spec 32 (x % 2 ^ 32) (by norm_num) 32 (mask % 2 ^ 32) 0 0 hlo
      (popcount64_le_width hlo) (by simpa using popcount64_le_width hlo)]
  rw [pextBitloopGo_spec 32 ((x >>> 32) % 2 ^ 32) (by norm_num) 32 (mask >>> 32) 0 0 hhi0
      (popcount64_le_width hhi0) (by simpa using popcount64_le_width hhi0)]
  simp only [Nat.shiftLeft_zero, Nat.zero_or]
  have hxlo : pextSpec (x % 2 ^ 32) (mask % 2 ^ 32) = pextSpec x (mask % 2 ^ 32) := by
    apply pextSpec_value_congr
    intro p hp
    rw [Nat.testBit_mod_two_pow]
    simp [mem_maskBits_width hlo hp]
  have hxhi : pextSpec ((x >>> 32) % 2 ^ 32) (mask >>> 32) = pextSpec (x >>> 32) (mask >>> 32) := by
    apply pextSpec_value_congr
    intro p hp
    rw [Nat.testBit_mod_two_pow]
    simp [mem_maskBits_width hhi0 hp]
  rw [hxlo, hxhi, ← pextSpec_split x mask 32 hm (by norm_num)]

/-! ## Correctness of the byte-table strategy -/

theorem popcount64_split {m : Nat} (hm : m < 2 ^ 64) {s : Nat} (hs : s ≤ 64) :
    popcount64 m = popcount64 (m % 2 ^ s) + popcount64 (m >>> s) := by
  rw [popcount64, maskBits_split hm hs]
  simp [popcount64]

theorem shiftRight_eq_zero {m s : Nat} (hm : m < 2 ^ s) : m >>> s = 0 := by
  rw [Nat.shiftRight_eq_div_pow]
  exact Nat.div_eq_of_lt hm

theorem lor_shiftLeft_distrib (p q s : Nat) :
    (p ||| q) <<< s = (p <<< s) ||| (q <<< s) := by
  apply Nat.eq_of_testBit_eq
  intro i
  simp only [Nat.testBit_shiftLeft, Nat.testBit_or]
  rw [Bool.and_or_distrib_left]

theorem maskBits_one : maskBits 1 = [0] := by decide

theorem popcount64_one : popcount64 1 = 1 := by decide

/-- Peeling the lowest bit position off the ground-truth function. -/
theorem pextSpec_odd {v n : Nat} (hn : n < 2 ^ 64) (h : n % 2 = 1) :
    pextSpec v n = (v.testBit 0).toNat + 2 * pextSpec (v >>> 1) (n >>> 1) := by
  have hsplit := pextSpec_split v n 1 hn (by norm_num)
  rw [show n % 2 ^ 1 = 1 from by omega] at hsplit
  rw [hsplit, popcount64_one]
  have h1 : pextSpec v 1 = (v.testBit 0).toNat := by
    rw [pextSpec, maskBits_one]
    simp [ofBools]
  rw [h1, Nat.shiftLeft_eq]
  have htn : (v.testBit 0).toNat < 2 ^ 1 := by
    rcases v.testBit 0 with _ | _ <;> simp [Bool.toNat]
  rw [← add_mul_pow_eq_or _ htn, pow_one]
  ring

theorem pextSpec_even {v n : Nat} (hn : n < 2 ^ 64) (h : n % 2 = 0) :
    pextSpec v n = pextSpec (v >>> 1) (n >>> 1) := by
  have hsplit := pextSpec_split v n 1 hn (by norm_num)
  rw [show n % 2 ^ 1 = 0 from by omega] at hsplit
  rw [hsplit, pextSpec_zero_mask]
  have : popcount64 0 = 0 := by decide
  rw [this, Nat.shiftLeft_zero, Nat.zero_or]

theorem testBit_eq_one_iff (m b : Nat) : (m >>> b) % 2 = 1 ↔ m.testBit b = true := by
  rw [Nat.testBit_to_div_mod, Nat.shiftRight_eq_div_pow]
  simp

set_option maxRecDepth 10000 in
/-- The `PextTable8::popcnt` entries are the byte popcounts. -/
theorem popcnt8_eq : ∀ m < 256, popcnt8 m = popcount64 m := by decide

theorem popcount64_pos {m : Nat} (hm : m < 2 ^ 64) (h0 : m ≠ 0) : 0 < popcount64 m := by
  rcases hl : maskBits m with _ | ⟨t, rest⟩
  · exact absurd ((maskBits_eq_nil_iff hm).1 hl) h0
  · simp [popcount64, hl]

/-- Chunk extraction commutes with truncation:
`(m % 2 ^ (b + s)) >>> b = (m >>> b) % 2 ^ s`. -/
theorem mod_pow_shiftRight (m b s : Nat) :
    (m % 2 ^ (b + s)) >>> b = (m >>> b) % 2 ^ s := by
  rw [Nat.shiftRight_eq_div_pow, Nat.shiftRight_eq_div_pow, pow_add]
  exact Nat.mod_mul_right_div_self m (2 ^ b) (2 ^ s)

theorem mod_pow_mod_pow (m b s : Nat) : (m % 2 ^ (b + s)) % 2 ^ b = m % 2 ^ b :=
  Nat.mod_mod_of_dvd m (pow_dvd_pow 2 (by omega))

/-- The popcount of the low bits grows by the tested bit. -/
theorem popcount64_mod_succ (m b : Nat) (hb : b + 1 ≤ 64) :
    popcount64 (m % 2 ^ (b + 1)) =
      popcount64 (m % 2 ^ b) + popcount64 ((m >>> b) % 2) := by
  have hmod : m % 2 ^ (b + 1) < 2 ^ 64 :=
    lt_of_lt_of_le (Nat.mod_lt _ (Nat.two_pow_pos _)) (Nat.pow_le_pow_right (by norm_num) hb)
  have h := popcount64_split hmod (s := b) (by omega)
  rw [mod_pow_mod_pow m b 1, show b + 1 = b + 1 from rfl] at h
  rw [h]
  congr 1
  rw [mod_pow_shiftRight m b 1]
  norm_num

theorem pextByteGo_spec (m x : Nat) (hm : m < 2 ^ 8) :
    ∀ n b out, b + n = 8 →
      pextByteGo m x n b out ((2 ^ popcount64 (m % 2 ^ b)) % 2 ^ 8) =
        out ||| ((pextSpec (x >>> b) (m >>> b)) <<< popcount64 (m % 2 ^ b)) := by
  intro n
  induction n with
  | zero =>
    intro b out hb
    have hb8 : b = 8 := by omega
    subst hb8
    rw [pextByteGo, shiftRight_eq_zero hm, pextSpec_zero_mask, Nat.zero_shiftLeft,
      Nat.or_zero]
  | succ n ih =>
    intro b out hb
    have hblt : b < 8 := by omega
    have hm64 : m < 2 ^ 64 := lt_of_lt_of_le hm (by norm_num)
    have hmb64 : m >>> b < 2 ^ 64 := by
      have hle : m >>> b ≤ m := by
        rw [Nat.shiftRight_eq_div_pow]
        exact Nat.div_le_self _ _
      exact lt_of_le_of_lt hle hm64
    have hpcsplit : popcount64 m = popcount64 (m % 2 ^ b) + popcount64 (m >>> b) :=
      popcount64_split hm64 (by omega)
    have hpcm : popcount64 m ≤ 8 := popcount64_le_width hm
    rw [pextByteGo]
    rw [if_pos hblt]
    simp only [Nat.one_shiftLeft]
    rcases hmb : m.testBit b with _ | _
    · -- bit `b` of the mask is clear: the state is unchanged
      rw [if_neg (by simp [land_two_pow, hmb])]
      have heven : (m >>> b) % 2 = 0 := by
        rcases Nat.mod_two_eq_zero_or_one (m >>> b) with h | h
        · exact h
        · exact absurd ((testBit_eq_one_iff m b).1 h) (by simp [hmb])
      have hpc1 : popcount64 (m % 2 ^ (b + 1)) = popcount64 (m % 2 ^ b) := by
        rw [popcount64_mod_succ m b (by omega), heven]
        simp [popcount64, maskBits_zero]
      rw [show (2 ^ popcount64 (m % 2 ^ b)) % 2 ^ 8 =
          (2 ^ popcount64 (m % 2 ^ (b + 1))) % 2 ^ 8 from by rw [hpc1]]
      rw [ih (b + 1) out (by omega), hpc1, pextSpec_even hmb64 heven,
        Nat.shiftRight_add x b 1, Nat.shiftRight_add m b 1]
    · -- bit `b` of the mask is set: emit one output bit
      rw [if_pos (by rw [land_two_pow, hmb]; simpa [Bool.toNat] using (Nat.two_pow_pos b).ne')]
      have hodd : (m >>> b) % 2 = 1 := (testBit_eq_one_iff m b).2 hmb
      have hnz : m >>> b ≠ 0 := by omega

      have hpos : 0 < popcount64 (m >>> b) := popcount64_pos hmb64 hnz
      have hjlt : popcount64 (m % 2 ^ b) < 8 := by omega
      have hpc1 : popcount64 (m % 2 ^ (b + 1)) = popcount64 (m % 2 ^ b) + 1 := by
        rw [popcount64_mod_succ m b (by omega), hodd, popcount64_one]
      have hmodj : (2 ^ popcount64 (m % 2 ^ b)) % 2 ^ 8 = 2 ^ popcount64 (m % 2 ^ b) :=
        Nat.mod_eq_of_lt (Nat.pow_lt_pow_right (by omega) hjlt)
      have hshift : ((((2 ^ popcount64 (m % 2 ^ b)) % 2 ^ 8) <<< 1) % 2 ^ 8) =
          (2 ^ popcount64 (m % 2 ^ (b + 1))) % 2 ^ 8 := by
        rw [hmodj, Nat.shiftLeft_eq, pow_one, hpc1,
          show (2 : Nat) ^ (popcount64 (m % 2 ^ b) + 1) = 2 ^ popcount64 (m % 2 ^ b) * 2 from
            pow_succ 2 _]
      rw [hshift, ih (b + 1) _ (by omega), hpc1]
      rw [pextSpec_odd hmb64 hodd]
      have hx0 : (x >>> b).testBit 0 = x.testBit b := by
        rw [Nat.testBit_shiftRight]
        norm_num
      rw [hx0, ← Nat.shiftRight_add x b 1, ← Nat.shiftRight_add m b 1,
        shiftLeft_bit_cons, ← Nat.or_assoc]
      congr 1
      rcases hxb : x.testBit b with _ | _
      · rw [if_neg (by simp [land_two_pow, hxb])]
        simp [Bool.toNat]
      · rw [if_pos (by rw [land_two_pow, hxb]; simpa [Bool.toNat] using (Nat.two_pow_pos b).ne')]
        rw [hmodj]
        simp [Bool.toNat, Nat.one_shiftLeft]

/-- The byte-table entries compute the ground-truth PEXT on bytes. -/
theorem pextByte_eq (m x : Nat) (hm : m < 2 ^ 8) :
    pextByte m x = pextSpec x m := by
  have h := pextByteGo_spec m x hm 8 0 0 (by omega)
  have h0 : m % 2 ^ 0 = 0 := by omega
  rw [h0] at h
  have hpc0 : popcount64 0 = 0 := by decide
  rw [hpc0, pow_zero, Nat.mod_eq_of_lt (by norm_num : (1 : Nat) < 2 ^ 8)] at h
  rw [pextByte, h]
  simp

theorem table8Go_spec (x mask : Nat) (hmask : mask < 2 ^ 64) :
    ∀ n i out, i + n = 8 →
      table8Go x mask n i out (popcount64 (mask % 2 ^ (8 * i))) =
        out ||| ((pextSpec (x >>> (8 * i)) (mask >>> (8 * i))) <<<
          popcount64 (mask % 2 ^ (8 * i))) := by
  intro n
  induction n with
  | zero =>
    intro i out hi
    have hi8 : i = 8 := by omega
    subst hi8
    rw [table8Go, shiftRight_eq_zero (show mask < 2 ^ (8 * 8) from hmask),
      pextSpec_zero_mask, Nat.zero_shiftLeft, Nat.or_zero]
  | succ n ih =>
    intro i out hi
    have hilt : i < 8 := by omega
    have hmm : (mask >>> (8 * i)) % 2 ^ 8 < 2 ^ 8 := Nat.mod_lt _ (by norm_num)
    have hmb64 : mask >>> (8 * i) < 2 ^ 64 := by
      have hle : mask >>> (8 * i) ≤ mask := by
        rw [Nat.shiftRight_eq_div_pow]
        exact Nat.div_le_self _ _
      exact lt_of_le_of_lt hle hmask
    have hpopstep : popcount64 (mask % 2 ^ (8 * i + 8)) =
        popcount64 (mask % 2 ^ (8 * i)) + popcount64 ((mask >>> (8 * i)) % 2 ^ 8) := by
      have hM : mask % 2 ^ (8 * i + 8) < 2 ^ 64 :=
        lt_of_lt_of_le (Nat.mod_lt _ (Nat.two_pow_pos _))
          (Nat.pow_le_pow_right (by norm_num) (by omega))
      have h := popcount64_split hM (s := 8 * i) (by omega)
      rw [mod_pow_mod_pow mask (8 * i) 8, mod_pow_shiftRight mask (8 * i) 8] at h
      exact h
    rw [table8Go]
    rw [if_pos hilt]
    show table8Go x mask n (i + 1)
        (out ||| pextByte ((mask >>> (8 * i)) % 2 ^ 8) ((x >>> (8 * i)) % 2 ^ 8) <<<
          popcount64 (mask % 2 ^ (8 * i)))
        (popcount64 (mask % 2 ^ (8 * i)) + popcnt8 ((mask >>> (8 * i)) % 2 ^ 8)) =
      out ||| pextSpec (x >>> (8 * i)) (mask >>> (8 * i)) <<< popcount64 (mask % 2 ^ (8 * i))
    rw [popcnt8_eq _ (by omega : (mask >>> (8 * i)) % 2 ^ 8 < 256)]
    rw [pextByte_eq _ _ hmm]
    have hvx : pextSpec ((x >>> (8 * i)) % 2 ^ 8) ((mask >>> (8 * i)) % 2 ^ 8) =
        pextSpec (x >>> (8 * i)) ((mask >>> (8 * i)) % 2 ^ 8) := by
      apply pextSpec_value_congr
      intro p hp
      rw [Nat.testBit_mod_two_pow]
      simp [mem_maskBits_width hmm hp]
    rw [hvx]
    rw [show popcount64 (mask % 2 ^ (8 * i)) + popcount64 ((mask >>> (8 * i)) % 2 ^ 8) =
        popcount64 (mask % 2 ^ (8 * (i + 1))) from by
          rw [show 8 * (i + 1) = 8 * i + 8 from by ring, hpopstep]]
    rw [ih (i + 1) _ (by omega)]
    rw [pextSpec_split (x >>> (8 * i)) (mask >>> (8 * i)) 8 hmb64 (by norm_num)]
    rw [lor_shiftLeft_distrib, Nat.shiftLeft_shiftLeft, ← Nat.or_assoc]
    congr 2
    rw [show 8 * (i + 1) = 8 * i + 8 from by ring, hpopstep, Nat.add_comm]

/-- The byte-table strategy computes the ground-truth PEXT. -/
theorem pext_sw_table8_u64_eq (x mask : Nat) (hm : mask < 2 ^ 64) :
    pext_sw_table8_u64 x mask = pextSpec x mask := by
  have h := table8Go_spec x mask hm 8 0 0 (by omega)
  rw [show (8 : Nat) * 0 = 0 from by ring, show mask % 2 ^ 0 = 0 from by omega,
    show popcount64 0 = 0 from by decide] at h
  simp only [Nat.shiftRight_zero, Nat.shiftLeft_zero, Nat.zero_or] at h
  exact h

/-! ## Claim C1 -/

/-- C1: For every 64-bit value and every 64-bit mask, each of the three
mask-generic software strategies `pext_sw_bitloop_u64`,
`pext_sw_split32_u64`, and `pext_sw_table8_u64` returns the reference
PEXT result: letting `b0 < b1 < ... < b(n-1)` be the positions (low to
high) where the mask has a 1, bit `i` of the result equals bit `b_i` of
the value for every `i` in `[0, n)`, all higher result bits are 0, and
in particular `mask == 0` gives result 0 for any value. -/
theorem claim_C1 (v m : Nat) (hv : v < 2 ^ 64) (hm : m < 2 ^ 64) :
    PextContract v m (pext_sw_bitloop_u64 v m) ∧
    PextContract v m (pext_sw_split32_u64 v m) ∧
    PextContract v m (pext_sw_table8_u64 v m) ∧
    (m = 0 → pext_sw_bitloop_u64 v 0 = 0 ∧ pext_sw_split32_u64 v 0 = 0 ∧
      pext_sw_table8_u64 v 0 = 0) := by
  refine ⟨(pextContract_iff v m _).2 (pext_sw_bitloop_u64_eq v m hm),
    (pextContract_iff v m _).2 (pext_sw_split32_u64_eq v m hm),
    (pextContract_iff v m _).2 (pext_sw_table8_u64_eq v m hm), ?_⟩
  rintro rfl
  refine ⟨?_, ?_, ?_⟩
  · rw [pext_sw_bitloop_u64_eq v 0 (by norm_num), pextSpec_zero_mask]
  · rw [pext_sw_split32_u64_eq v 0 (by norm_num), pextSpec_zero_mask]
  · rw [pext_sw_table8_u64_eq v 0 (by norm_num), pextSpec_zero_mask]

theorem claim_C1_witness :
    PextContract 0xABCDEF0123456789 0xF0F00F0FF0F00F0F
      (pext_sw_bitloop_u64 0xABCDEF0123456789 0xF0F00F0FF0F00F0F) ∧
    PextContract 0xABCDEF0123456789 0xF0F00F0FF0F00F0F
      (pext_sw_split32_u64 0xABCDEF0123456789 0xF0F00F0FF0F00F0F) ∧
    PextContract 0xABCDEF0123456789 0xF0F00F0FF0F00F0F
      (pext_sw_table8_u64 0xABCDEF0123456789 0xF0F00F0FF0F00F0F) ∧
    (0xF0F00F0FF0F00F0F = 0 → pext_sw_bitloop_u64 0xABCDEF0123456789 0 = 0 ∧
      pext_sw_split32_u64 0xABCDEF0123456789 0 = 0 ∧
      pext_sw_table8_u64 0xABCDEF0123456789 0 = 0) :=
  claim_C1 0xABCDEF0123456789 0xF0F00F0FF0F00F0F (by decide) (by decide)

/-! ## Toolkit: run decomposition of an ascending position list -/

theorem runsFromBits_eq_nil_iff (bs : List Nat) : runsFromBits bs = [] ↔ bs = [] := by
  cases bs with
  | nil => simp [runsFromBits]
  | cons p ps =>
    simp only [runsFromBits]
    rcases runsFromBits ps with _ | ⟨⟨s, l⟩, rs⟩
    · simp
    · by_cases h : p + 1 = s <;> simp [h]

theorem runsFromBits_cons (p : Nat) (t : List Nat) :
    runsFromBits (p :: t) =
      match runsFromBits t with
      | [] => [(p, 1)]
      | (s, l) :: rs =>
        if p + 1 = s then (p, l + 1) :: rs else (p, 1) :: (s, l) :: rs := rfl

theorem runsFromBits_head_start {bs : List Nat} {s l : Nat} {rs : List (Nat × Nat)}
    (h : runsFromBits bs = (s, l) :: rs) : bs.head? = some s := by
  cases bs with
  | nil => simp [runsFromBits] at h
  | cons p ps =>
    rw [runsFromBits_cons] at h
    rcases hps : runsFromBits ps with _ | ⟨⟨s', l'⟩, rs'⟩ <;> rw [hps] at h
    · simp at h
      simp [h.1.1]
    · by_cases hadj : p + 1 = s' <;> simp [hadj] at h
      · simp [h.1.1]
      · simp [h.1.1]

theorem runsWF_mono {lb lb' : Nat} {rs : List (Nat × Nat)} (h : lb' ≤ lb)
    (hwf : RunsWF lb rs) : RunsWF lb' rs := by
  cases rs with
  | nil => trivial
  | cons r t =>
    rcases r with ⟨s, l⟩
    rcases hwf with ⟨h1, h2, h3⟩
    exact ⟨le_trans h h1, h2, h3⟩

theorem runsFromBits_wf {bs : List Nat} (hp : bs.Pairwise (· < ·)) :
    ∀ lb, (∀ p ∈ bs, lb ≤ p) → RunsWF lb (runsFromBits bs) := by
  induction bs with
  | nil => intro lb _; trivial
  | cons p t ih =>
    intro lb hlb
    rcases List.pairwise_cons.1 hp with ⟨hgt, hpt⟩
    have hih := ih hpt (p + 1) (fun q hq => Nat.succ_le_of_lt (hgt q hq))
    rw [runsFromBits_cons]
    rcases ht : runsFromBits t with _ | ⟨⟨s, l⟩, rs⟩
    · exact ⟨hlb p (by simp), le_refl 1, trivial⟩
    · rw [ht] at hih
      rcases hih with ⟨hs, hl, hrs⟩
      by_cases hadj : p + 1 = s
      · simp only [if_pos hadj]
        refine ⟨hlb p (by simp), by omega, ?_⟩
        have heq : s + l + 1 = p + (l + 1) + 1 := by omega
        rw [← heq]
        exact hrs
      · simp only [if_neg hadj]
        exact ⟨hlb p (by simp), le_refl 1, ⟨by omega, hl, hrs⟩⟩

theorem runsWF_bounds {lb : Nat} {rs : List (Nat × Nat)} (h : RunsWF lb rs) :
    ∀ r ∈ rs, lb ≤ r.1 ∧ 1 ≤ r.2 := by
  induction rs generalizing lb with
  | nil => simp
  | cons r t ih =>
    rcases r with ⟨s, l⟩
    rcases h with ⟨h1, h2, h3⟩
    intro q hq
    rcases List.mem_cons.1 hq with rfl | hq
    · exact ⟨h1, h2⟩
    · have := ih h3 q hq
      exact ⟨by omega, this.2⟩

theorem coveredBy_runsFromBits {bs : List Nat} (hp : bs.Pairwise (· < ·)) (i : Nat) :
    coveredBy (runsFromBits bs) i ↔ i ∈ bs := by
  induction bs with
  | nil => simp [runsFromBits, coveredBy]
  | cons p t ih =>
    rcases List.pairwise_cons.1 hp with ⟨hgt, hpt⟩
    have hih := ih hpt
    rw [runsFromBits_cons]
    rcases ht : runsFromBits t with _ | ⟨⟨s, l⟩, rs⟩
    · have ht0 : t = [] := (runsFromBits_eq_nil_iff t).1 ht
      subst ht0
      simp [coveredBy]
      omega
    · rw [ht] at hih
      unfold coveredBy at hih ⊢
      by_cases hadj : p + 1 = s
      · simp only [if_pos hadj]
        constructor
        · rintro ⟨r, hr, hcov⟩
          rcases List.mem_cons.1 hr with rfl | hr
          · simp only at hcov
            rcases Nat.lt_or_ge i (p + 1) with hip | hip
            · have : i = p := by omega
              simp [this]
            · refine List.mem_cons_of_mem p (hih.1 ⟨(s, l), by simp, ?_⟩)
              simp only
              omega
          · exact List.mem_cons_of_mem p (hih.1 ⟨r, List.mem_cons_of_mem _ hr, hcov⟩)
        · intro hi
          rcases List.mem_cons.1 hi with rfl | hi
          · exact ⟨(i, l + 1), by simp, by simp⟩
          · rcases hih.2 hi with ⟨r, hr, hcov⟩
            rcases List.mem_cons.1 hr with rfl | hr
            · refine ⟨(p, l + 1), by simp, ?_⟩
              simp only at hcov ⊢
              omega
            · exact ⟨r, by simp [hr], hcov⟩
      · simp only [if_neg hadj]
        constructor
        · rintro ⟨r, hr, hcov⟩
          rcases List.mem_cons.1 hr with rfl | hr
          · simp only at hcov
            have : i = p := by omega
            simp [this]
          · exact List.mem_cons_of_mem p (hih.1 ⟨r, hr, hcov⟩)
        · intro hi
          rcases List.mem_cons.1 hi with rfl | hi
          · exact ⟨(i, 1), by simp, by simp⟩
          · rcases hih.2 hi with ⟨r, hr, hcov⟩
            exact ⟨r, by simp [hr], hcov⟩

theorem lensSum_runsFromBits (bs : List Nat) :
    lensSum (runsFromBits bs) = bs.length := by
  induction bs with
  | nil => simp [runsFromBits, lensSum]
  | cons p t ih =>
    rw [runsFromBits_cons]
    rcases ht : runsFromBits t with _ | ⟨⟨s, l⟩, rs⟩
    · have ht0 : t = [] := (runsFromBits_eq_nil_iff t).1 ht
      subst ht0
      simp [lensSum]
    · rw [ht] at ih
      by_cases hadj : p + 1 = s
      · simp only [if_pos hadj]
        simp [lensSum] at ih ⊢
        omega
      · simp only [if_neg hadj]
        simp [lensSum] at ih ⊢
        omega

theorem runsWF_length_bound {rs : List (Nat × Nat)} :
    ∀ lb, RunsWF lb rs → (∀ r ∈ rs, r.1 + r.2 ≤ 64) → rs ≠ [] →
      2 * rs.length + lb ≤ 65 := by
  induction rs with
  | nil => simp
  | cons r t ih =>
    rcases r with ⟨s, l⟩
    intro lb hwf hbnd _
    rcases hwf with ⟨h1, h2, h3⟩
    have hsl : s + l ≤ 64 := hbnd (s, l) (by simp)
    rcases ht : t with _ | ⟨r', t'⟩
    · simp
      omega
    · rw [← ht]
      have := ih (s + l + 1) (ht ▸ h3) (fun q hq => hbnd q (by simp [hq]))
        (by simp [ht])
      simp only [List.length_cons]
      omega

/-- A 64-bit mask has at most 32 maximal runs. -/
theorem runsOf_length_le (m : Nat) (hm : m < 2 ^ 64) : (runsOf m).length ≤ 32 := by
  rcases h0 : runsFromBits (maskBits m) with _ | ⟨r, rs⟩
  · simp [runsOf, h0]
  · have hwf : RunsWF 0 (runsFromBits (maskBits m)) :=
      runsFromBits_wf (maskBits_pairwise m) 0 (fun p _ => Nat.zero_le p)
    have hbnd : ∀ q ∈ runsFromBits (maskBits m), q.1 + q.2 ≤ 64 := by
      intro q hq
      have hb := runsWF_bounds hwf q hq
      have hcov : coveredBy (runsFromBits (maskBits m)) (q.1 + q.2 - 1) :=
        ⟨q, hq, by omega⟩
      have := (coveredBy_runsFromBits (maskBits_pairwise m) _).1 hcov
      have := maskBits_lt_of_mem this
      omega
    have hb := runsWF_length_bound 0 hwf hbnd (by simp [h0])
    rw [runsOf, h0]
    rw [h0] at hb
    simp only [List.length_cons] at hb ⊢
    omega

theorem runsOf_wf (m : Nat) : RunsWF 0 (runsOf m) :=
  runsFromBits_wf (maskBits_pairwise m) 0 (fun p _ => Nat.zero_le p)

theorem runsFromBits_append {A B : List Nat}
    (hgap : ∀ p q, A.getLast? = some p → B.head? = some q → p + 1 ≠ q) :
    runsFromBits (A ++ B) = runsFromBits A ++ runsFromBits B := by
  induction A with
  | nil => simp [runsFromBits]
  | cons a A' ih =>
    cases A' with
    | nil =>
      simp only [List.singleton_append]
      rw [runsFromBits_cons]
      rcases hB : runsFromBits B with _ | ⟨⟨s, l⟩, rs⟩
      · have hB0 : B = [] := (runsFromBits_eq_nil_iff B).1 hB
        subst hB0
        simp [runsFromBits]
      · have hBh := runsFromBits_head_start hB
        have hne : a + 1 ≠ s := hgap a s (by simp) hBh
        simp only [if_neg hne]
        simp [runsFromBits]
    | cons a2 A'' =>
      have hgap2 : ∀ p q, (a2 :: A'').getLast? = some p → B.head? = some q → p + 1 ≠ q := by
        intro p q hp hq
        exact hgap p q (by rwa [List.getLast?_cons_cons]) hq
      have hih := ih hgap2
      rw [List.cons_append, runsFromBits_cons, runsFromBits_cons (t := a2 :: A''), hih]
      rcases hA : runsFromBits (a2 :: A'') with _ | ⟨⟨s, l⟩, rs⟩
      · exact absurd ((runsFromBits_eq_nil_iff _).1 hA) (by simp)
      · simp only [List.cons_append]
        by_cases hadj : a + 1 = s
        · simp [hadj]
        · simp [hadj]

theorem runsFromBits_range' : ∀ n s, 1 ≤ n → runsFromBits (List.range' s n) = [(s, n)] := by
  intro n
  induction n with
  | zero => intro s h; omega
  | succ n ih =>
    intro s _
    rcases Nat.eq_zero_or_pos n with rfl | hn
    · simp [runsFromBits]
    · rw [List.range'_succ, runsFromBits_cons, ih (s + 1) hn]
      simp

theorem filter_lt_split {l : List Nat} (hp : l.Pairwise (· < ·)) {bit e : Nat} (hbe : bit ≤ e) :
    l.filter (fun p => p < e) =
      l.filter (fun p => p < bit) ++ l.filter (fun p => bit ≤ p ∧ p < e) := by
  induction l with
  | nil => simp
  | cons a t ih =>
    rcases List.pairwise_cons.1 hp with ⟨hgt, hpt⟩
    have hih := ih hpt
    rcases Nat.lt_or_ge a bit with hab | hab
    · rw [List.filter_cons_of_pos (by simp; omega), List.filter_cons_of_pos (by simp; omega),
        List.filter_cons_of_neg (by simp; omega), hih, List.cons_append]
    · have ht_bit : t.filter (fun p => p < bit) = [] := by
        apply List.filter_eq_nil_iff.2
        intro x hx
        have := hgt x hx
        simp
        omega
      rcases Nat.lt_or_ge a e with hae | hae
      · rw [List.filter_cons_of_pos (by simp; omega), List.filter_cons_of_neg (by simp; omega),
          List.filter_cons_of_pos (by simp; omega), hih, ht_bit]
        simp
      · have hte : t.filter (fun p => p < e) = [] := by
          apply List.filter_eq_nil_iff.2
          intro x hx
          have := hgt x hx
          simp
          omega
        have htmid : t.filter (fun p => bit ≤ p ∧ p < e) = [] := by
          apply List.filter_eq_nil_iff.2
          intro x hx
          have := hgt x hx
          simp
          omega
        rw [List.filter_cons_of_neg (by simp; omega), List.filter_cons_of_neg (by simp; omega),
          List.filter_cons_of_neg (by simp; omega), hte, ht_bit, htmid]
        simp

theorem filter_mid_eq_range' {m bit e : Nat} (hm : m < 2 ^ 64) (he : e ≤ 64)
    (hall : ∀ j, bit ≤ j → j < e → m.testBit j = true) :
    (maskBits m).filter (fun p => bit ≤ p ∧ p < e) = List.range' bit (e - bit) := by
  apply sortedLt_ext
  · exact List.Pairwise.filter _ (maskBits_pairwise m)
  · exact List.pairwise_lt_range' bit (e - bit)
  · intro x
    rw [List.mem_filter, mem_maskBits, List.mem_range'_1]
    simp only [decide_eq_true_eq]
    constructor
    · rintro ⟨⟨_, _⟩, hx1, hx2⟩
      omega
    · rintro ⟨hx1, hx2⟩
      have hxe : x < e := by omega
      exact ⟨⟨by omega, hall x hx1 hxe⟩, by omega⟩

theorem set_append_replicate {A : List Nat} {k : Nat} (hk : 1 ≤ k) (v : Nat) :
    (A ++ List.replicate k 0).set A.length v = (A ++ [v]) ++ List.replicate (k - 1) 0 := by
  induction A with
  | nil =>
    rcases k with _ | k
    · omega
    · simp [List.replicate_succ]
  | cons a t ih =>
    simp only [List.cons_append, List.length_cons, List.set_cons_succ, ih]

theorem shiftsSpec_append (X Y : List (Nat × Nat)) :
    ∀ a, shiftsSpec a (X ++ Y) = shiftsSpec a X ++ shiftsSpec (a + lensSum X) Y := by
  induction X with
  | nil => intro a; simp [shiftsSpec, lensSum]
  | cons r t ih =>
    intro a
    rcases r with ⟨s, l⟩
    have hlen : lensSum ((s, l) :: t) = l + lensSum t := by simp [lensSum]
    rw [List.cons_append, shiftsSpec, shiftsSpec, ih (a + l), hlen, List.cons_append,
      show a + (l + lensSum t) = a + l + lensSum t from by ring]

theorem make_run_mask64_eq {s l : Nat} (hl : 1 ≤ l) (hsl : s + l ≤ 64) :
    make_run_mask64 s l = runMaskOf (s, l) := by
  rw [make_run_mask64, if_neg (by omega)]
  by_cases h64 : 64 ≤ l
  · have hl64 : l = 64 := by omega
    have hs0 : s = 0 := by omega
    subst hl64
    subst hs0
    rw [if_pos (le_refl 64), runMaskOf]
    simp [Nat.one_shiftLeft, Nat.shiftLeft_eq]
  · rw [if_neg h64, runMaskOf]

theorem testBit_runMaskOf (s l i : Nat) :
    (runMaskOf (s, l)).testBit i = decide (s ≤ i ∧ i < s + l) := by
  rw [runMaskOf]
  simp only [Nat.one_shiftLeft]
  rw [Nat.testBit_shiftLeft, Nat.testBit_two_pow_sub_one, Bool.eq_iff_iff]
  simp only [Bool.and_eq_true, decide_eq_true_eq, ge_iff_le]
  omega

theorem findRunEnd_eq (mask : Nat) :
    ∀ fuel bit e, bit ≤ e → e - bit ≤ fuel →
      (∀ j, bit ≤ j → j < e → (j < 64 ∧ mask.testBit j = true)) →
      ¬(e < 64 ∧ mask.testBit e = true) →
      findRunEnd mask fuel bit = e := by
  intro fuel
  induction fuel with
  | zero =>
    intro bit e h1 h2 _ _
    have hbe : bit = e := by omega
    subst hbe
    rfl
  | succ fuel ih =>
    intro bit e h1 h2 h3 h4
    rcases Nat.eq_or_lt_of_le h1 with rfl | hlt
    · rw [findRunEnd, if_neg]
      rintro ⟨hc1, hc2⟩
      rw [Nat.and_one_is_mod] at hc2
      exact h4 ⟨hc1, (testBit_eq_one_iff mask bit).1 hc2⟩
    · have hb := h3 bit (le_refl bit) hlt
      have hcond : bit < 64 ∧ (mask >>> bit) &&& 1 = 1 := by
        refine ⟨hb.1, ?_⟩
        rw [Nat.and_one_is_mod]
        exact (testBit_eq_one_iff mask bit).2 hb.2
      rw [findRunEnd, if_pos hcond]
      exact ih (bit + 1) e (by omega) (by omega) (fun j hj1 hj2 => h3 j (by omega) hj2) h4

theorem mem_of_getLast?_eq_some {l : List Nat} {a : Nat} (h : l.getLast? = some a) :
    a ∈ l := by
  induction l with
  | nil => simp at h
  | cons x xs ih =>
    cases xs with
    | nil =>
      simp at h
      simp [h]
    | cons y ys =>
      rw [List.getLast?_cons_cons] at h
      exact List.mem_cons_of_mem x (ih h)

theorem mem_of_head?_eq_some {l : List Nat} {a : Nat} (h : l.head? = some a) : a ∈ l := by
  rcases l with _ | ⟨x, xs⟩
  · simp at h
  · simp at h
    simp [h]

/-- Splitting the run decomposition at a position that does not cut
through a run. -/
theorem runsOf_decompose (mask : Nat) (hm : mask < 2 ^ 64) {bit : Nat} (hb : bit ≤ 64)
    (hboundary : bit = 0 ∨ mask.testBit (bit - 1) = false ∨ mask.testBit bit = false) :
    runsOf mask = runsFromBits ((maskBits mask).filter (fun p => p < bit)) ++
      runsFromBits ((maskBits mask).filter (fun p => bit ≤ p)) := by
  have hself : (maskBits mask).filter (fun p => p < 64) = maskBits mask := by
    apply List.filter_eq_self.2
    intro p hp
    simp [maskBits_lt_of_mem hp]
  have hmid : (maskBits mask).filter (fun p => bit ≤ p ∧ p < 64) =
      (maskBits mask).filter (fun p => bit ≤ p) := by
    apply List.filter_congr
    intro p hp
    have := maskBits_lt_of_mem hp
    simp [this]
  have hmb : maskBits mask = (maskBits mask).filter (fun p => p < bit) ++
      (maskBits mask).filter (fun p => bit ≤ p) := by
    rw [← hmid, ← filter_lt_split (maskBits_pairwise mask) hb, hself]
  rw [runsOf]
  conv_lhs => rw [hmb]
  apply runsFromBits_append
  intro p q hp hq
  have hpm := mem_of_getLast?_eq_some hp
  have hqm := mem_of_head?_eq_some hq
  rw [List.mem_filter] at hpm hqm
  have hplt : p < bit := by
    have := hpm.2
    simpa using this
  have hqge : bit ≤ q := by
    have := hqm.2
    simpa using this
  intro hpq
  have hq_bit : q = bit := by omega
  have hp_bit : p = bit - 1 := by omega
  rcases hboundary with h0 | h1 | h2
  · omega
  · rw [← hp_bit] at h1
    rw [(mem_maskBits.1 hpm.1).2] at h1
    exact Bool.false_ne_true h1.symm
  · rw [← hq_bit] at h2
    rw [(mem_maskBits.1 hqm.1).2] at h2
    exact Bool.false_ne_true h2.symm

theorem head?_range' {s n : Nat} (hn : 1 ≤ n) : (List.range' s n).head? = some s := by
  rcases n with _ | n
  · omega
  · rw [List.range'_succ]
    rfl

theorem shiftsSpec_length : ∀ (a : Nat) (rs : List (Nat × Nat)),
    (shiftsSpec a rs).length = rs.length := by
  intro a rs
  induction rs generalizing a with
  | nil => simp [shiftsSpec]
  | cons r t ih =>
    rcases r with ⟨s, l⟩
    simp [shiftsSpec, ih]

theorem set_append_replicate' {A : List Nat} {k n : Nat} (hn : n = A.length) (hk : 1 ≤ k)
    (v : Nat) :
    (A ++ List.replicate k 0).set n v = (A ++ [v]) ++ List.replicate (k - 1) 0 := by
  subst hn
  exact set_append_replicate hk v

/-- Main invariant of the preprocessing scan: started at a position that
does not cut through a run, with the tables filled for all runs below
that position, the scan completes with the full run decomposition. -/
theorem preprocessGo_invariant (mask : Nat) (hm : mask < 2 ^ 64) :
    ∀ fuel bit out_pos arr_idx msks shfts,
      65 - bit ≤ fuel →
      (bit = 0 ∨ mask.testBit (bit - 1) = false ∨ mask.testBit bit = false) →
      arr_idx = (runsFromBits ((maskBits mask).filter (fun p => p < bit))).length →
      out_pos = ((maskBits mask).filter (fun p => p < bit)).length →
      msks = (runsFromBits ((maskBits mask).filter (fun p => p < bit))).map runMaskOf ++
        List.replicate (32 - arr_idx) 0 →
      shfts = shiftsSpec 0 (runsFromBits ((maskBits mask).filter (fun p => p < bit))) ++
        List.replicate (32 - arr_idx) 0 →
      preprocessGo mask fuel bit out_pos arr_idx ⟨msks, shfts⟩ =
        .ok ⟨(runsOf mask).map runMaskOf ++ List.replicate (32 - (runsOf mask).length) 0,
             shiftsSpec 0 (runsOf mask) ++ List.replicate (32 - (runsOf mask).length) 0⟩ := by
  have hterm : ∀ bit, 64 ≤ bit →
      (maskBits mask).filter (fun p => p < bit) = maskBits mask := by
    intro bit h64
    apply List.filter_eq_self.2
    intro p hp
    have := maskBits_lt_of_mem hp
    simp
    omega
  intro fuel
  induction fuel with
  | zero =>
    intro bit out_pos arr_idx msks shfts hfuel _ harr _ hmsk hshf
    rw [hterm bit (by omega)] at harr hmsk hshf
    rw [preprocessGo, hmsk, hshf, harr, runsOf]
  | succ fuel ih =>
    intro bit out_pos arr_idx msks shfts hfuel hboundary harr hout hmsk hshf
    by_cases hbit : bit < 64
    swap
    · rw [preprocessGo, if_neg hbit]
      rw [hterm bit (by omega)] at harr hmsk hshf
      rw [hmsk, hshf, harr, runsOf]
    rw [preprocessGo, if_pos hbit]
    by_cases htb : mask.testBit bit = true
    swap
    · -- bit is clear: skip it
      have htbf : mask.testBit bit = false := by
        rcases h : mask.testBit bit with _ | _
        · rfl
        · exact absurd h htb
      rw [if_pos (by
        rw [Nat.and_one_is_mod]
        rcases Nat.mod_two_eq_zero_or_one (mask >>> bit) with h | h
        · exact h
        · exact absurd ((testBit_eq_one_iff mask bit).1 h) (by simp [htbf]))]
      have hPe : (maskBits mask).filter (fun p => p < bit + 1) =
          (maskBits mask).filter (fun p => p < bit) := by
        apply List.filter_congr
        intro p hp
        rw [decide_eq_decide]
        have hpbit : p ≠ bit := by
          intro hpb
          rw [hpb] at hp
          rw [(mem_maskBits.1 hp).2] at htbf
          exact Bool.false_ne_true htbf.symm
        omega
      apply ih (bit + 1) out_pos arr_idx msks shfts (by omega)
        (Or.inr (Or.inl (by simpa using htbf)))
      · rw [hPe]
        exact harr
      · rw [hPe]
        exact hout
      · rw [hPe]
        exact hmsk
      · rw [hPe]
        exact hshf
    · -- bit starts a run
      rw [if_neg (by
        rw [Nat.and_one_is_mod, (testBit_eq_one_iff mask bit).2 htb]
        omega)]
      have hex : ∃ j, bit ≤ j ∧ (64 ≤ j ∨ mask.testBit j = false) :=
        ⟨64, by omega, Or.inl (le_refl 64)⟩
      obtain ⟨e, hbe, he2, hmin⟩ :
          ∃ e, bit ≤ e ∧ (64 ≤ e ∨ mask.testBit e = false) ∧
            ∀ j, j < e → ¬(bit ≤ j ∧ (64 ≤ j ∨ mask.testBit j = false)) :=
        ⟨Nat.find hex, (Nat.find_spec hex).1, (Nat.find_spec hex).2,
          fun j hj => Nat.find_min hex hj⟩
      have he64 : e ≤ 64 := by
        by_contra hgt
        exact hmin 64 (by omega) ⟨by omega, Or.inl (le_refl 64)⟩
      have hrun : ∀ j, bit ≤ j → j < e → (j < 64 ∧ mask.testBit j = true) := by
        intro j hj1 hj2
        have hj := hmin j hj2
        push_neg at hj
        rcases hj hj1 with ⟨h1, h2⟩
        refine ⟨by omega, ?_⟩
        rcases hb2 : mask.testBit j with _ | _
        · exact absurd hb2 h2
        · rfl
      have hbe' : bit < e := by
        rcases Nat.eq_or_lt_of_le hbe with heq | h
        · exfalso
          rcases he2 with h1 | h2
          · omega
          · rw [← heq, htb] at h2
            exact Bool.false_ne_true h2.symm
        · exact h
      have hestop : mask.testBit e = false := by
        rcases he2 with h1 | h2
        · have he64x : e = 64 := by omega
          rw [he64x]
          exact testBit_high hm (le_refl 64)
        · exact h2
      rw [findRunEnd_eq mask 64 bit e hbe (by omega) hrun
        (by rintro ⟨_, h2⟩; rw [hestop] at h2; exact Bool.false_ne_true h2)]
      have hPsplit : (maskBits mask).filter (fun p => p < e) =
          (maskBits mask).filter (fun p => p < bit) ++ List.range' bit (e - bit) := by
        rw [filter_lt_split (maskBits_pairwise mask) hbe,
          filter_mid_eq_range' hm he64 (fun j h1 h2 => (hrun j h1 h2).2)]
      have hgapP : ∀ p q,
          ((maskBits mask).filter (fun p => p < bit)).getLast? = some p →
          (List.range' bit (e - bit)).head? = some q → p + 1 ≠ q := by
        intro p q hp hq
        have hpm := mem_of_getLast?_eq_some hp
        rw [List.mem_filter] at hpm
        have hplt : p < bit := by
          have := hpm.2
          simpa using this
        rw [head?_range' (by omega)] at hq
        have hq_bit : q = bit := by simpa using hq.symm
        intro hpq
        have hp_bit : p = bit - 1 := by omega
        rcases hboundary with h0 | h1 | h2
        · omega
        · rw [← hp_bit] at h1
          rw [(mem_maskBits.1 hpm.1).2] at h1
          exact Bool.false_ne_true h1.symm
        · rw [htb] at h2
          exact Bool.false_ne_true h2.symm
      have hrunsP : runsFromBits ((maskBits mask).filter (fun p => p < e)) =
          runsFromBits ((maskBits mask).filter (fun p => p < bit)) ++ [(bit, e - bit)] := by
        rw [hPsplit, runsFromBits_append hgapP, runsFromBits_range' (e - bit) bit (by omega)]
      have hdec := runsOf_decompose mask hm (by omega : bit ≤ 64) hboundary
      have hRne : runsFromBits ((maskBits mask).filter (fun p => bit ≤ p)) ≠ [] := by
        rw [Ne, runsFromBits_eq_nil_iff]
        intro hR0
        have hbmem : bit ∈ (maskBits mask).filter (fun p => bit ≤ p) := by
          rw [List.mem_filter]
          exact ⟨mem_maskBits.2 ⟨hbit, htb⟩, by simp⟩
        rw [hR0] at hbmem
        simp at hbmem
      have htot : (runsOf mask).length ≤ 32 := runsOf_length_le mask hm
      have harr_lt : arr_idx ≤ 31 := by
        rw [harr]
        rw [hdec, List.length_append] at htot
        rcases hR : runsFromBits ((maskBits mask).filter (fun p => bit ≤ p)) with _ | ⟨r, rs⟩
        · exact absurd hR hRne
        · rw [hR] at htot
          simp at htot
          omega
      rw [if_neg (by omega)]
      have hlen_eq : (e - 1) - bit + 1 = e - bit := by omega
      have hblock : make_run_mask64 bit ((e - 1) - bit + 1) = runMaskOf (bit, e - bit) := by
        rw [hlen_eq]
        exact make_run_mask64_eq (by omega) (by omega)
      have hAlen : arr_idx = ((runsFromBits ((maskBits mask).filter (fun p => p < bit))).map
          runMaskOf).length := by
        rw [List.length_map, harr]
      have hSlen : arr_idx = (shiftsSpec 0 (runsFromBits ((maskBits mask).filter
          (fun p => p < bit)))).length := by
        rw [shiftsSpec_length, harr]
      have hmsk2 : msks.set arr_idx (make_run_mask64 bit ((e - 1) - bit + 1)) =
          (runsFromBits ((maskBits mask).filter (fun p => p < e))).map runMaskOf ++
            List.replicate (32 - (arr_idx + 1)) 0 := by
        rw [hmsk, hblock, set_append_replicate' hAlen (by omega) _]
        rw [hrunsP, List.map_append]
        rw [show 32 - arr_idx - 1 = 32 - (arr_idx + 1) from by omega]
        rfl
      have hshf2 : shfts.set arr_idx (bit - out_pos) =
          shiftsSpec 0 (runsFromBits ((maskBits mask).filter (fun p => p < e))) ++
            List.replicate (32 - (arr_idx + 1)) 0 := by
        rw [hshf, set_append_replicate' hSlen (by omega) _]
        rw [hrunsP, shiftsSpec_append, lensSum_runsFromBits, ← hout]
        rw [show 32 - arr_idx - 1 = 32 - (arr_idx + 1) from by omega]
        simp [shiftsSpec]
      have hout2 : out_pos + ((e - 1) - bit + 1) =
          ((maskBits mask).filter (fun p => p < e)).length := by
        rw [hPsplit, List.length_append, List.length_range', hout, hlen_eq]
      have harr2 : arr_idx + 1 =
          (runsFromBits ((maskBits mask).filter (fun p => p < e))).length := by
        rw [hrunsP, List.length_append, harr]
        simp
      have := ih e (out_pos + ((e - 1) - bit + 1)) (arr_idx + 1)
        (msks.set arr_idx (make_run_mask64 bit ((e - 1) - bit + 1)))
        (shfts.set arr_idx (bit - out_pos))
        (by omega) (Or.inr (Or.inr hestop)) harr2 hout2 hmsk2 hshf2
      exact this

/-- The preprocessing always succeeds (for 64-bit masks) and returns the
full run decomposition: run masks then zeros, shifts then zeros. -/
theorem preprocess_eq (mask : Nat) (hm : mask < 2 ^ 64) :
    pext_sw_block_table_preprocess_u64 mask =
      .ok ⟨(runsOf mask).map runMaskOf ++ List.replicate (32 - (runsOf mask).length) 0,
           shiftsSpec 0 (runsOf mask) ++ List.replicate (32 - (runsOf mask).length) 0⟩ := by
  rw [pext_sw_block_table_preprocess_u64]
  have hfilter : (maskBits mask).filter (fun p => p < 0) = [] := by
    rw [List.eq_nil_iff_forall_not_mem]
    intro x hx
    rw [List.mem_filter] at hx
    have := hx.2
    simp at this
  exact preprocessGo_invariant mask hm 65 0 0 0 (List.replicate 32 0) (List.replicate 32 0)
    (by omega) (Or.inl rfl) (by rw [hfilter]; rfl) (by rw [hfilter]; rfl)
    (by rw [hfilter]; rfl) (by rw [hfilter]; rfl)

theorem testBit_foldr_or (l : List Nat) (i : Nat) :
    (l.foldr (fun a b => a ||| b) 0).testBit i = l.any (fun a => a.testBit i) := by
  induction l with
  | nil => simp
  | cons a t ih => simp [Nat.testBit_or, ih]

/-- Run masks of a wellformed run list are pairwise disjoint. -/
theorem runsWF_pairwise {lb : Nat} {rs : List (Nat × Nat)} (h : RunsWF lb rs) :
    rs.Pairwise (fun a b => runMaskOf a &&& runMaskOf b = 0) := by
  induction rs generalizing lb with
  | nil => exact List.Pairwise.nil
  | cons r t ih =>
    rcases r with ⟨s, l⟩
    rcases h with ⟨h1, h2, h3⟩
    refine List.Pairwise.cons ?_ (ih h3)
    intro q hq
    have hqb := runsWF_bounds h3 q hq
    apply Nat.eq_of_testBit_eq
    intro i
    rcases q with ⟨qs, ql⟩
    rw [Nat.testBit_and, testBit_runMaskOf, testBit_runMaskOf, Nat.zero_testBit]
    rcases hd : decide (s ≤ i ∧ i < s + l) with _ | _
    · simp
    · have hd' := of_decide_eq_true hd
      have hqs : s + l + 1 ≤ qs := hqb.1
      have : ¬(qs ≤ i ∧ i < qs + ql) := by omega
      simp [this]

/-- OR-ing all run masks reconstructs the original mask. -/
theorem foldr_or_runsOf (mask : Nat) (hm : mask < 2 ^ 64) :
    ((runsOf mask).map runMaskOf).foldr (fun a b => a ||| b) 0 = mask := by
  apply Nat.eq_of_testBit_eq
  intro i
  rw [testBit_foldr_or, Bool.eq_iff_iff]
  simp only [List.any_eq_true, List.mem_map]
  constructor
  · rintro ⟨x, ⟨⟨s, l⟩, hr, rfl⟩, htb⟩
    rw [testBit_runMaskOf] at htb
    have hcov : coveredBy (runsOf mask) i := ⟨(s, l), hr, of_decide_eq_true htb⟩
    rw [runsOf] at hcov
    have := (coveredBy_runsFromBits (maskBits_pairwise mask) i).1 hcov
    exact (mem_maskBits.1 this).2
  · intro htb
    have hi64 : i < 64 := by
      by_contra h64
      rw [testBit_high hm (le_of_not_lt h64)] at htb
      exact Bool.false_ne_true htb
    have hmem : i ∈ maskBits mask := mem_maskBits.2 ⟨hi64, htb⟩
    have hcov := (coveredBy_runsFromBits (maskBits_pairwise mask) i).2 hmem
    rcases hcov with ⟨⟨s, l⟩, hr, hc⟩
    exact ⟨runMaskOf (s, l), ⟨(s, l), hr, rfl⟩,
      by rw [testBit_runMaskOf]; exact decide_eq_true hc⟩

/-- The `i`-th shift entry is the run start minus the accumulated length
of all prior runs. -/
theorem shiftsSpec_getElem? :
    ∀ (rs : List (Nat × Nat)) (acc i s l : Nat), rs[i]? = some (s, l) →
      (shiftsSpec acc rs)[i]? = some (s - (acc + lensSum (rs.take i))) := by
  intro rs
  induction rs with
  | nil =>
    intro acc i s l h
    simp at h
  | cons r t ih =>
    intro acc i s l h
    rcases r with ⟨a, b⟩
    cases i with
    | zero =>
      simp only [List.getElem?_cons_zero, Option.some.injEq, Prod.mk.injEq] at h
      rw [shiftsSpec]
      simp [lensSum, h.1]
    | succ i =>
      rw [shiftsSpec]
      simp only [List.getElem?_cons_succ] at h ⊢
      rw [ih (acc + b) i s l h]
      have htake : lensSum ((a, b) :: t.take i) = b + lensSum (t.take i) := by
        simp [lensSum]
      rw [List.take_succ_cons, htake]
      congr 2
      omega

/-- C4: for every 64-bit mask, `pext_sw_block_table_preprocess_u64`
succeeds and produces a table whose first `r` mask entries are exactly
the `r` maximal 1-runs of the mask in increasing bit-position order
(pairwise disjoint, OR-ing them reproduces the mask, all remaining
entries zero), and whose `i`-th shift entry is the run's start position
minus the total number of 1-bits in all prior runs. -/
theorem claim_C4 (mask : Nat) (hm : mask < 2 ^ 64) :
    ∃ pb, pext_sw_block_table_preprocess_u64 mask = .ok pb ∧
      (runsOf mask).length ≤ 32 ∧
      pb.masks = (runsOf mask).map runMaskOf ++
        List.replicate (32 - (runsOf mask).length) 0 ∧
      pb.shifts = shiftsSpec 0 (runsOf mask) ++
        List.replicate (32 - (runsOf mask).length) 0 ∧
      ((runsOf mask).map runMaskOf).Pairwise (fun a b => a &&& b = 0) ∧
      ((runsOf mask).map runMaskOf).foldr (fun a b => a ||| b) 0 = mask ∧
      ∀ i s l, (runsOf mask)[i]? = some (s, l) →
        pb.masks[i]? = some (runMaskOf (s, l)) ∧
        pb.shifts[i]? = some (s - lensSum ((runsOf mask).take i)) := by
  refine ⟨_, preprocess_eq mask hm, runsOf_length_le mask hm, rfl, rfl, ?_,
    foldr_or_runsOf mask hm, ?_⟩
  · rw [List.pairwise_map]
    exact runsWF_pairwise (runsOf_wf mask)
  · intro i s l h
    have hi : i < (runsOf mask).length := by
      by_contra hge
      rw [List.getElem?_eq_none (le_of_not_lt hge)] at h
      simp at h
    constructor
    · show ((runsOf mask).map runMaskOf ++
        List.replicate (32 - (runsOf mask).length) 0)[i]? = some (runMaskOf (s, l))
      rw [List.getElem?_append, if_pos (by simpa using hi), List.getElem?_map, h]
      rfl
    · show (shiftsSpec 0 (runsOf mask) ++
        List.replicate (32 - (runsOf mask).length) 0)[i]? =
          some (s - lensSum ((runsOf mask).take i))
      rw [List.getElem?_append, if_pos (by rw [shiftsSpec_length]; exact hi)]
      rw [shiftsSpec_getElem? (runsOf mask) 0 i s l h]
      rw [Nat.zero_add]

/-- Witness: the claimed decomposition at the concrete mask 89 = 0b1011001. -/
theorem claim_C4_witness :
    ∃ pb, pext_sw_block_table_preprocess_u64 89 = .ok pb ∧
      (runsOf 89).length ≤ 32 ∧
      pb.masks = (runsOf 89).map runMaskOf ++
        List.replicate (32 - (runsOf 89).length) 0 ∧
      pb.shifts = shiftsSpec 0 (runsOf 89) ++
        List.replicate (32 - (runsOf 89).length) 0 ∧
      ((runsOf 89).map runMaskOf).Pairwise (fun a b => a &&& b = 0) ∧
      ((runsOf 89).map runMaskOf).foldr (fun a b => a ||| b) 0 = 89 ∧
      ∀ i s l, (runsOf 89)[i]? = some (s, l) →
        pb.masks[i]? = some (runMaskOf (s, l)) ∧
        pb.shifts[i]? = some (s - lensSum ((runsOf 89).take i)) :=
  claim_C4 89 (by norm_num)

/-- C7: the preprocessing raises its structural error exactly when the
mask has more than 32 maximal 1-runs — which never happens for a 64-bit
mask, so it always succeeds — and no silent truncation occurs: the
number of nonzero mask entries in the table equals the run count. -/
theorem claim_C7 (mask : Nat) (hm : mask < 2 ^ 64) :
    ((∃ e, pext_sw_block_table_preprocess_u64 mask = .error e) ↔
      32 < (runsOf mask).length) ∧
    ∃ pb, pext_sw_block_table_preprocess_u64 mask = .ok pb ∧
      (pb.masks.filter (fun x => decide (x ≠ 0))).length = (runsOf mask).length := by
  have hok := preprocess_eq mask hm
  have hle := runsOf_length_le mask hm
  constructor
  · constructor
    · rintro ⟨e, he⟩
      rw [hok] at he
      simp at he
    · intro h
      exact absurd h (Nat.not_lt.2 hle)
  · refine ⟨_, hok, ?_⟩
    show ((((runsOf mask).map runMaskOf) ++
      List.replicate (32 - (runsOf mask).length) 0).filter (fun x => decide (x ≠ 0))).length = _
    rw [List.filter_append]
    have h1 : ((runsOf mask).map runMaskOf).filter (fun x => decide (x ≠ 0)) =
        (runsOf mask).map runMaskOf := by
      apply List.filter_eq_self.2
      intro x hx
      rcases List.mem_map.1 hx with ⟨⟨a, b⟩, hr, rfl⟩
      have hb := (runsWF_bounds (runsOf_wf mask) (a, b) hr).2
      have htb : (runMaskOf (a, b)).testBit a = true := by
        rw [testBit_runMaskOf]
        simp only [decide_eq_true_eq]
        omega
      rw [decide_eq_true_eq]
      intro h0
      rw [h0, Nat.zero_testBit] at htb
      exact Bool.false_ne_true htb
    have h2 : (List.replicate (32 - (runsOf mask).length) 0).filter
        (fun x => decide (x ≠ 0)) = [] := by
      rw [List.eq_nil_iff_forall_not_mem]
      intro x hx
      rw [List.mem_filter] at hx
      have hx0 := List.eq_of_mem_replicate hx.1
      rw [hx0] at hx
      simp at hx
    rw [h1, h2, List.append_nil, List.length_map]

/-- Witness: C7 instantiated at the concrete mask 89 = 0b1011001. -/
theorem claim_C7_witness :
    ((∃ e, pext_sw_block_table_preprocess_u64 89 = .error e) ↔
      32 < (runsOf 89).length) ∧
    ∃ pb, pext_sw_block_table_preprocess_u64 89 = .ok pb ∧
      (pb.masks.filter (fun x => decide (x ≠ 0))).length = (runsOf 89).length :=
  claim_C7 89 (by norm_num)

/-- C2 counterexample: for the 32-run mask 0xAAAAAAAAAAAAAAAA the
preprocessing succeeds, but applying the table reads `pb.masks[32]` out
of bounds (undefined behaviour in the source, `none` in this total
embedding), so the composition does not return the bit-loop result
0xFFFFFFFF. -/
theorem claim_C2 :
    (pext_sw_block_table_preprocess_u64 0xAAAAAAAAAAAAAAAA).toOption.map
        (pext_sw_block_table_u64 0xFFFFFFFFFFFFFFFF) = some none ∧
      pext_sw_bitloop_u64 0xFFFFFFFFFFFFFFFF 0xAAAAAAAAAAAAAAAA = 0xFFFFFFFF := by
  constructor
  · decide
  · decide

/-- C3 counterexample: the alternating mask 0x5555555555555555 has
exactly 32 maximal runs, all 32 table entries are nonzero, and applying
the table takes the out-of-range branch of the `while (pb.masks[i])`
loop (the read of index 32 yields `none` in this total embedding). -/
theorem claim_C3 :
    (runsOf 0x5555555555555555).length = 32 ∧
    ((pext_sw_block_table_preprocess_u64 0x5555555555555555).toOption.map
        (fun pb => pb.masks.all (fun x => decide (x ≠ 0))) = some true) ∧
    (pext_sw_block_table_preprocess_u64 0x5555555555555555).toOption.map
        (pext_sw_block_table_u64 0x123456789ABCDEF0) = some none := by
  refine ⟨by decide, by decide, by decide⟩

/-! ## Toolkit for the InstLatX64 closed-form cases -/

/-- A one-bit `bextr` reads a single bit of the value. -/
theorem bextr_bit (v p : Nat) : bextr_u64 v p 1 = (v.testBit p).toNat := by
  rw [bextr_u64, if_neg (by omega), if_neg (by omega)]
  have h1 : (1 <<< 1 : Nat) - 1 = 1 := by decide
  rw [h1, Nat.and_one_is_mod]
  rcases h : v.testBit p with _ | _
  · rcases Nat.mod_two_eq_zero_or_one (v >>> p) with h2 | h2
    · rw [h2]
      rfl
    · rw [(testBit_eq_one_iff v p).1 h2] at h
      exact Bool.noConfusion h
  · rw [(testBit_eq_one_iff v p).2 h]
    rfl

/-- `countr_zero` reads the head of the set-position list. -/
theorem countr_head {m b : Nat} {t : List Nat} (hl : maskBits m = b :: t) :
    countr_zero64 m = b := by
  have hm0 : m ≠ 0 := by
    intro h
    rw [h, maskBits_zero] at hl
    exact List.noConfusion hl
  rw [countr_zero64, if_neg hm0, hl]
  rfl

/-- `63 - countl_zero` reads the last element of the set-position list. -/
theorem countl_last {m b c : Nat} {mid : List Nat}
    (hl : maskBits m = b :: (mid ++ [c])) : 63 - countl_zero64 m = c := by
  have hm0 : m ≠ 0 := by
    intro h
    rw [h, maskBits_zero] at hl
    exact List.noConfusion hl
  have hcmem : c ∈ maskBits m := by
    rw [hl]
    exact List.mem_cons_of_mem _ (List.mem_append_right _ (List.mem_singleton_self c))
  have hc64 : c < 64 := maskBits_lt_of_mem hcmem
  rw [countl_zero64, if_neg hm0, hl, List.getLastD_cons, List.getLastD_concat]
  omega

theorem testBit_not64_pair (a b i : Nat) (hi : i < 64) :
    (not64 ((1 <<< a) ||| (1 <<< b))).testBit i = decide (i ≠ a ∧ i ≠ b) := by
  rw [not64, Nat.testBit_xor, Nat.testBit_two_pow_sub_one, Nat.testBit_or,
    Nat.one_shiftLeft, Nat.one_shiftLeft, Nat.testBit_two_pow, Nat.testBit_two_pow,
    decide_eq_true hi]
  by_cases h1 : a = i <;> by_cases h2 : b = i <;> simp [h1, h2, Ne, eq_comm]

/-- Clearing the highest and lowest set bits keeps exactly the middle
positions. -/
theorem maskBits_clear_ends {m b c : Nat} {mid : List Nat}
    (hl : maskBits m = b :: (mid ++ [c])) :
    maskBits (m &&& not64 ((1 <<< c) ||| (1 <<< b))) = mid := by
  have hpw := maskBits_pairwise m
  rw [hl] at hpw
  have hpc := List.pairwise_cons.1 hpw
  have hmid_ranges : ∀ p ∈ mid, b < p ∧ p < c := by
    intro p hp
    exact ⟨hpc.1 p (List.mem_append_left _ hp),
      (List.pairwise_append.1 hpc.2).2.2 p hp c (List.mem_singleton_self c)⟩
  apply sortedLt_ext (maskBits_pairwise _) (List.pairwise_append.1 hpc.2).1
  intro x
  rw [mem_maskBits, Nat.testBit_and]
  constructor
  · rintro ⟨hx64, hb'⟩
    rw [Bool.and_eq_true, testBit_not64_pair c b x hx64, decide_eq_true_eq] at hb'
    have hxm : x ∈ maskBits m := mem_maskBits.2 ⟨hx64, hb'.1⟩
    rw [hl] at hxm
    rcases List.mem_cons.1 hxm with rfl | hxm
    · exact absurd rfl hb'.2.2
    rcases List.mem_append.1 hxm with h | h
    · exact h
    · rw [List.mem_singleton] at h
      exact absurd h hb'.2.1
  · intro hx
    have hr := hmid_ranges x hx
    have hxm : x ∈ maskBits m := by
      rw [hl]
      exact List.mem_cons_of_mem _ (List.mem_append_left _ hx)
    have hx64 : x < 64 := maskBits_lt_of_mem hxm
    refine ⟨hx64, ?_⟩
    rw [Bool.and_eq_true, testBit_not64_pair c b x hx64]
    exact ⟨(mem_maskBits.1 hxm).2, decide_eq_true ⟨by omega, by omega⟩⟩

/-- `blsr` is the xor with the lowest set bit. -/
theorem blsr_eq_xor {m t : Nat} (ht : m.testBit t = true)
    (hlow : ∀ i, i < t → m.testBit i = false) :
    blsr_u64 m = m ^^^ 2 ^ t := by
  apply Nat.eq_of_testBit_eq
  intro i
  rw [blsr_u64, Nat.testBit_and, testBit_pred ht hlow i, Nat.testBit_xor,
    Nat.testBit_two_pow]
  rcases Nat.lt_trichotomy i t with h | rfl | h
  · have h3 : decide (t = i) = false := by
      rw [decide_eq_false_iff_not]
      omega
    rw [hlow i h, h3]
    simp
  · rw [ht]
    simp
  · have h1 : decide (i < t) = false := by
      rw [decide_eq_false_iff_not]
      omega
    have h3 : decide (t = i) = false := by
      rw [decide_eq_false_iff_not]
      omega
    rw [h1, h3, decide_eq_true h]
    simp

/-- `blsr` removes the head of the set-position list. -/
theorem maskBits_blsr {m : Nat} (hm : m < 2 ^ 64) {b : Nat} {t : List Nat}
    (hl : maskBits m = b :: t) : maskBits (blsr_u64 m) = t := by
  have hbmem : b ∈ maskBits m := by
    rw [hl]
    exact List.mem_cons_self _ _
  have htb : m.testBit b = true := (mem_maskBits.1 hbmem).2
  have hpw := maskBits_pairwise m
  rw [hl] at hpw
  have hball := (List.pairwise_cons.1 hpw).1
  have hlow : ∀ i, i < b → m.testBit i = false := by
    intro i hi
    by_contra hcon
    have hib : i ∈ maskBits m := by
      rw [mem_maskBits]
      refine ⟨by have := maskBits_lt_of_mem hbmem; omega, Bool.of_not_eq_false hcon⟩
    rw [hl] at hib
    rcases List.mem_cons.1 hib with rfl | hib
    · omega
    · have := hball i hib
      omega
  rw [blsr_eq_xor htb hlow, maskBits_xor_pow hm htb, hl,
    List.filter_cons_of_neg (by simp)]
  apply List.filter_eq_self.2
  intro q hq
  have := hball q hq
  exact decide_eq_true (by omega)

theorem assemble2 : ∀ t0 t1 : Bool,
    ((t1.toNat <<< 1) ||| t0.toNat) = ofBools [t0, t1] := by decide

theorem assemble3 : ∀ t0 t1 t2 : Bool,
    ((t2.toNat <<< 2) ||| (t1.toNat <<< 1) ||| t0.toNat) = ofBools [t0, t1, t2] := by decide

theorem assemble4 : ∀ t0 t1 t2 t3 : Bool,
    (((t3.toNat <<< 3) ||| t0.toNat) ||| ((t2.toNat <<< 2) ||| (t1.toNat <<< 1))) =
      ofBools [t0, t1, t2, t3] := by decide

theorem assemble5 : ∀ t0 t1 t2 t3 t4 : Bool,
    ((((t4.toNat <<< 4) ||| t0.toNat) ||| ((t3.toNat <<< 3) ||| (t1.toNat <<< 1))) |||
      (t2.toNat <<< 2)) = ofBools [t0, t1, t2, t3, t4] := by decide

theorem assemble6 : ∀ t0 t1 t2 t3 t4 t5 : Bool,
    ((((t5.toNat <<< 5) ||| t0.toNat) ||| ((t4.toNat <<< 4) ||| (t1.toNat <<< 1))) |||
      ((t3.toNat <<< 3) ||| (t2.toNat <<< 2))) = ofBools [t0, t1, t2, t3, t4, t5] := by decide

theorem assemble7 : ∀ t0 t1 t2 t3 t4 t5 t6 : Bool,
    (((((t6.toNat <<< 6) ||| t0.toNat) ||| ((t5.toNat <<< 5) ||| (t1.toNat <<< 1))) |||
      ((t4.toNat <<< 4) ||| (t2.toNat <<< 2))) ||| (t3.toNat <<< 3)) =
      ofBools [t0, t1, t2, t3, t4, t5, t6] := by decide

theorem pext64_emu_pc0 (v m : Nat) (hpc : popcount64 m = 0) :
    pext64_emu v m = some (pextSpec v m) := by
  have hnil : maskBits m = [] := List.length_eq_zero.1 hpc
  unfold pext64_emu
  rw [hpc]
  show some 0 = some (pextSpec v m)
  rw [pextSpec, hnil]
  rfl

theorem pext64_emu_pc1 (v m : Nat) (hm : m < 2 ^ 64) (hpc : popcount64 m = 1) :
    pext64_emu v m = some (pextSpec v m) := by
  obtain ⟨b0, hl⟩ : ∃ b0, maskBits m = [b0] := by
    rcases e : maskBits m with _ | ⟨x0, _ | ⟨x1, r⟩⟩
    · rw [popcount64, e] at hpc
      simp at hpc
    · exact ⟨x0, rfl⟩
    · rw [popcount64, e] at hpc
      simp at hpc
  have hm2 : m = 2 ^ b0 := by
    apply Nat.eq_of_testBit_eq
    intro i
    rw [Nat.testBit_two_pow]
    by_cases hi : b0 = i
    · subst hi
      have hmem : b0 ∈ maskBits m := by
        rw [hl]
        exact List.mem_singleton_self _
      rw [(mem_maskBits.1 hmem).2]
      simp
    · have hd : decide (b0 = i) = false := by
        rw [decide_eq_false_iff_not]
        exact hi
      rw [hd]
      by_cases hi64 : i < 64
      · rcases h : m.testBit i with _ | _
        · rfl
        · have hmem : i ∈ maskBits m := mem_maskBits.2 ⟨hi64, h⟩
          rw [hl, List.mem_singleton] at hmem
          exact absurd hmem.symm hi
      · exact testBit_high hm (by omega)
  unfold pext64_emu
  rw [hpc]
  show some (if v &&& m ≠ 0 then 1 else 0) = some (pextSpec v m)
  rw [pextSpec, hl, hm2]
  show some (if v &&& 2 ^ b0 ≠ 0 then 1 else 0) = some ((v.testBit b0).toNat + 2 * 0)
  rcases h : v.testBit b0 with _ | _
  · rw [if_neg (fun hc => by
      rw [(land_two_pow_ne_zero_iff v b0).1 hc] at h
      exact Bool.noConfusion h)]
    rfl
  · rw [if_pos ((land_two_pow_ne_zero_iff v b0).2 h)]
    rfl

theorem pext64_emu_pc2 (v m : Nat) (hm : m < 2 ^ 64) (hpc : popcount64 m = 2) :
    pext64_emu v m = some (pextSpec v m) := by
  obtain ⟨b0, b1, hl⟩ : ∃ b0 b1, maskBits m = [b0, b1] := by
    rcases e : maskBits m with _ | ⟨x0, _ | ⟨x1, _ | ⟨x2, r⟩⟩⟩
    · rw [popcount64, e] at hpc
      simp at hpc
    · rw [popcount64, e] at hpc
      simp at hpc
    · exact ⟨x0, x1, rfl⟩
    · rw [popcount64, e] at hpc
      simp at hpc
  unfold pext64_emu
  rw [hpc]
  show some ((bextr_u64 v (63 - countl_zero64 m) 1 <<< 1) |||
      bextr_u64 v (countr_zero64 m) 1) = some (pextSpec v m)
  rw [countr_head hl, countl_last (show maskBits m = b0 :: ([] ++ [b1]) from hl),
    bextr_bit, bextr_bit, pextSpec, hl]
  exact congrArg some (assemble2 _ _)

theorem pext64_emu_pc3 (v m : Nat) (hm : m < 2 ^ 64) (hpc : popcount64 m = 3) :
    pext64_emu v m = some (pextSpec v m) := by
  obtain ⟨b0, b1, b2, hl⟩ : ∃ b0 b1 b2, maskBits m = [b0, b1, b2] := by
    rcases e : maskBits m with _ | ⟨x0, _ | ⟨x1, _ | ⟨x2, _ | ⟨x3, r⟩⟩⟩⟩ <;>
      first
        | exact ⟨x0, x1, x2, rfl⟩
        | (rw [popcount64, e] at hpc; simp at hpc)
        | (rw [popcount64, e] at hpc; simp at hpc; omega)
  unfold pext64_emu
  rw [hpc]
  show some ((bextr_u64 v (63 - countl_zero64 m) 1 <<< 2) |||
      (bextr_u64 v (countr_zero64 (blsr_u64 m)) 1 <<< 1) |||
      bextr_u64 v (countr_zero64 m) 1) = some (pextSpec v m)
  rw [countr_head hl, countl_last (show maskBits m = b0 :: ([b1] ++ [b2]) from hl),
    countr_head (maskBits_blsr hm hl)]
  simp only [bextr_bit]
  rw [pextSpec, hl]
  exact congrArg some (assemble3 _ _ _)

theorem pext64_emu_pc4 (v m : Nat) (hm : m < 2 ^ 64) (hpc : popcount64 m = 4) :
    pext64_emu v m = some (pextSpec v m) := by
  obtain ⟨b0, b1, b2, b3, hl⟩ : ∃ b0 b1 b2 b3, maskBits m = [b0, b1, b2, b3] := by
    rcases e : maskBits m with _ | ⟨x0, _ | ⟨x1, _ | ⟨x2, _ | ⟨x3, _ | ⟨x4, r⟩⟩⟩⟩⟩ <;>
      first
        | exact ⟨x0, x1, x2, x3, rfl⟩
        | (rw [popcount64, e] at hpc; simp at hpc)
        | (rw [popcount64, e] at hpc; simp at hpc; omega)
  unfold pext64_emu
  rw [hpc]
  show some (((bextr_u64 v (63 - countl_zero64 m) 1 <<< 3) |||
      bextr_u64 v (countr_zero64 m) 1) |||
      ((bextr_u64 v (63 - countl_zero64 (m &&& not64 ((1 <<< (63 - countl_zero64 m)) |||
        (1 <<< countr_zero64 m)))) 1 <<< 2) |||
       (bextr_u64 v (countr_zero64 (m &&& not64 ((1 <<< (63 - countl_zero64 m)) |||
        (1 <<< countr_zero64 m)))) 1 <<< 1))) = some (pextSpec v m)
  rw [countl_last (show maskBits m = b0 :: ([b1, b2] ++ [b3]) from hl), countr_head hl]
  have hm1 : maskBits (m &&& not64 ((1 <<< b3) ||| (1 <<< b0))) = [b1, b2] :=
    maskBits_clear_ends (show maskBits m = b0 :: ([b1, b2] ++ [b3]) from hl)
  rw [countl_last (show maskBits (m &&& not64 ((1 <<< b3) ||| (1 <<< b0))) =
      b1 :: ([] ++ [b2]) from hm1), countr_head hm1]
  simp only [bextr_bit]
  rw [pextSpec, hl]
  exact congrArg some (assemble4 _ _ _ _)

theorem pext64_emu_pc5 (v m : Nat) (hm : m < 2 ^ 64) (hpc : popcount64 m = 5) :
    pext64_emu v m = some (pextSpec v m) := by
  obtain ⟨b0, b1, b2, b3, b4, hl⟩ : ∃ b0 b1 b2 b3 b4,
      maskBits m = [b0, b1, b2, b3, b4] := by
    rcases e : maskBits m with
      _ | ⟨x0, _ | ⟨x1, _ | ⟨x2, _ | ⟨x3, _ | ⟨x4, _ | ⟨x5, r⟩⟩⟩⟩⟩⟩ <;>
      first
        | exact ⟨x0, x1, x2, x3, x4, rfl⟩
        | (rw [popcount64, e] at hpc; simp at hpc)
        | (rw [popcount64, e] at hpc; simp at hpc; omega)
  unfold pext64_emu
  rw [hpc]
  show some ((((bextr_u64 v (63 - countl_zero64 m) 1 <<< 4) |||
      bextr_u64 v (countr_zero64 m) 1) |||
      ((bextr_u64 v (63 - countl_zero64 (m &&& not64 ((1 <<< (63 - countl_zero64 m)) |||
        (1 <<< countr_zero64 m)))) 1 <<< 3) |||
       (bextr_u64 v (countr_zero64 (m &&& not64 ((1 <<< (63 - countl_zero64 m)) |||
        (1 <<< countr_zero64 m)))) 1 <<< 1))) |||
      (bextr_u64 v (countr_zero64 ((m &&& not64 ((1 <<< (63 - countl_zero64 m)) |||
        (1 <<< countr_zero64 m))) &&& not64
        ((1 <<< (63 - countl_zero64 (m &&& not64 ((1 <<< (63 - countl_zero64 m)) |||
          (1 <<< countr_zero64 m))))) |||
         (1 <<< countr_zero64 (m &&& not64 ((1 <<< (63 - countl_zero64 m)) |||
          (1 <<< countr_zero64 m))))))) 1 <<< 2)) = some (pextSpec v m)
  rw [countl_last (show maskBits m = b0 :: ([b1, b2, b3] ++ [b4]) from hl), countr_head hl]
  have hm1 : maskBits (m &&& not64 ((1 <<< b4) ||| (1 <<< b0))) = [b1, b2, b3] :=
    maskBits_clear_ends (show maskBits m = b0 :: ([b1, b2, b3] ++ [b4]) from hl)
  rw [countl_last (show maskBits (m &&& not64 ((1 <<< b4) ||| (1 <<< b0))) =
      b1 :: ([b2] ++ [b3]) from hm1), countr_head hm1]
  have hm2 : maskBits ((m &&& not64 ((1 <<< b4) ||| (1 <<< b0))) &&& not64
      ((1 <<< b3) ||| (1 <<< b1))) = [b2] :=
    maskBits_clear_ends (show maskBits (m &&& not64 ((1 <<< b4) ||| (1 <<< b0))) =
      b1 :: ([b2] ++ [b3]) from hm1)
  rw [countr_head hm2]
  simp only [bextr_bit]
  rw [pextSpec, hl]
  exact congrArg some (assemble5 _ _ _ _ _)

theorem pext64_emu_pc6 (v m : Nat) (hm : m < 2 ^ 64) (hpc : popcount64 m = 6) :
    pext64_emu v m = some (pextSpec v m) := by
  obtain ⟨b0, b1, b2, b3, b4, b5, hl⟩ : ∃ b0 b1 b2 b3 b4 b5,
      maskBits m = [b0, b1, b2, b3, b4, b5] := by
    rcases e : maskBits m with
      _ | ⟨x0, _ | ⟨x1, _ | ⟨x2, _ | ⟨x3, _ | ⟨x4, _ | ⟨x5, _ | ⟨x6, r⟩⟩⟩⟩⟩⟩⟩ <;>
      first
        | exact ⟨x0, x1, x2, x3, x4, x5, rfl⟩
        | (rw [popcount64, e] at hpc; simp at hpc)
        | (rw [popcount64, e] at hpc; simp at hpc; omega)
  unfold pext64_emu
  rw [hpc]
  show some ((((bextr_u64 v (63 - countl_zero64 m) 1 <<< 5) |||
      bextr_u64 v (countr_zero64 m) 1) |||
      ((bextr_u64 v (63 - countl_zero64 (m &&& not64 ((1 <<< (63 - countl_zero64 m)) |||
        (1 <<< countr_zero64 m)))) 1 <<< 4) |||
       (bextr_u64 v (countr_zero64 (m &&& not64 ((1 <<< (63 - countl_zero64 m)) |||
        (1 <<< countr_zero64 m)))) 1 <<< 1))) |||
      ((bextr_u64 v (63 - countl_zero64 ((m &&& not64 ((1 <<< (63 - countl_zero64 m)) |||
        (1 <<< countr_zero64 m))) &&& not64
        ((1 <<< (63 - countl_zero64 (m &&& not64 ((1 <<< (63 - countl_zero64 m)) |||
          (1 <<< countr_zero64 m))))) |||
         (1 <<< countr_zero64 (m &&& not64 ((1 <<< (63 - countl_zero64 m)) |||
          (1 <<< countr_zero64 m))))))) 1 <<< 3) |||
       (bextr_u64 v (countr_zero64 ((m &&& not64 ((1 <<< (63 - countl_zero64 m)) |||
        (1 <<< countr_zero64 m))) &&& not64
        ((1 <<< (63 - countl_zero64 (m &&& not64 ((1 <<< (63 - countl_zero64 m)) |||
          (1 <<< countr_zero64 m))))) |||
         (1 <<< countr_zero64 (m &&& not64 ((1 <<< (63 - countl_zero64 m)) |||
          (1 <<< countr_zero64 m))))))) 1 <<< 2))) = some (pextSpec v m)
  rw [countl_last (show maskBits m = b0 :: ([b1, b2, b3, b4] ++ [b5]) from hl),
    countr_head hl]
  have hm1 : maskBits (m &&& not64 ((1 <<< b5) ||| (1 <<< b0))) = [b1, b2, b3, b4] :=
    maskBits_clear_ends (show maskBits m = b0 :: ([b1, b2, b3, b4] ++ [b5]) from hl)
  rw [countl_last (show maskBits (m &&& not64 ((1 <<< b5) ||| (1 <<< b0))) =
      b1 :: ([b2, b3] ++ [b4]) from hm1), countr_head hm1]
  have hm2 : maskBits ((m &&& not64 ((1 <<< b5) ||| (1 <<< b0))) &&& not64
      ((1 <<< b4) ||| (1 <<< b1))) = [b2, b3] :=
    maskBits_clear_ends (show maskBits (m &&& not64 ((1 <<< b5) ||| (1 <<< b0))) =
      b1 :: ([b2, b3] ++ [b4]) from hm1)
  rw [countl_last (show maskBits ((m &&& not64 ((1 <<< b5) ||| (1 <<< b0))) &&& not64
      ((1 <<< b4) ||| (1 <<< b1))) = b2 :: ([] ++ [b3]) from hm2), countr_head hm2]
  simp only [bextr_bit]
  rw [pextSpec, hl]
  exact congrArg some (assemble6 _ _ _ _ _ _)

theorem pext64_emu_pc7 (v m : Nat) (hm : m < 2 ^ 64) (hpc : popcount64 m = 7) :
    pext64_emu v m = some (pextSpec v m) := by
  obtain ⟨b0, b1, b2, b3, b4, b5, b6, hl⟩ : ∃ b0 b1 b2 b3 b4 b5 b6,
      maskBits m = [b0, b1, b2, b3, b4, b5, b6] := by
    rcases e : maskBits m with
      _ | ⟨x0, _ | ⟨x1, _ | ⟨x2, _ | ⟨x3, _ | ⟨x4, _ | ⟨x5, _ | ⟨x6, _ | ⟨x7, r⟩⟩⟩⟩⟩⟩⟩⟩ <;>
      first
        | exact ⟨x0, x1, x2, x3, x4, x5, x6, rfl⟩
        | (rw [popcount64, e] at hpc; simp at hpc)
        | (rw [popcount64, e] at hpc; simp at hpc; omega)
  unfold pext64_emu
  rw [hpc]
  show some (((((bextr_u64 v (63 - countl_zero64 m) 1 <<< 6) ||| bextr_u64 v (countr_zero64 m) 1) ||| ((bextr_u64 v (63 - countl_zero64 (m &&& not64 ((1 <<< (63 - countl_zero64 m)) ||| (1 <<< (countr_zero64 m))))) 1 <<< 5) ||| (bextr_u64 v (countr_zero64 (m &&& not64 ((1 <<< (63 - countl_zero64 m)) ||| (1 <<< (countr_zero64 m))))) 1 <<< 1))) ||| ((bextr_u64 v (63 - countl_zero64 ((m &&& not64 ((1 <<< (63 - countl_zero64 m)) ||| (1 <<< (countr_zero64 m)))) &&& not64 ((1 <<< (63 - countl_zero64 (m &&& not64 ((1 <<< (63 - countl_zero64 m)) ||| (1 <<< (countr_zero64 m)))))) ||| (1 <<< (countr_zero64 (m &&& not64 ((1 <<< (63 - countl_zero64 m)) ||| (1 <<< (countr_zero64 m))))))))) 1 <<< 4) ||| (bextr_u64 v (countr_zero64 ((m &&& not64 ((1 <<< (63 - countl_zero64 m)) ||| (1 <<< (countr_zero64 m)))) &&& not64 ((1 <<< (63 - countl_zero64 (m &&& not64 ((1 <<< (63 - countl_zero64 m)) ||| (1 <<< (countr_zero64 m)))))) ||| (1 <<< (countr_zero64 (m &&& not64 ((1 <<< (63 - countl_zero64 m)) ||| (1 <<< (countr_zero64 m))))))))) 1 <<< 2))) ||| (bextr_u64 v (countr_zero64 (((m &&& not64 ((1 <<< (63 - countl_zero64 m)) ||| (1 <<< (countr_zero64 m)))) &&& not64 ((1 <<< (63 - countl_zero64 (m &&& not64 ((1 <<< (63 - countl_zero64 m)) ||| (1 <<< (countr_zero64 m)))))) ||| (1 <<< (countr_zero64 (m &&& not64 ((1 <<< (63 - countl_zero64 m)) ||| (1 <<< (countr_zero64 m)))))))) &&& not64 ((1 <<< (63 - countl_zero64 ((m &&& not64 ((1 <<< (63 - countl_zero64 m)) ||| (1 <<< (countr_zero64 m)))) &&& not64 ((1 <<< (63 - countl_zero64 (m &&& not64 ((1 <<< (63 - countl_zero64 m)) ||| (1 <<< (countr_zero64 m)))))) ||| (1 <<< (countr_zero64 (m &&& not64 ((1 <<< (63 - countl_zero64 m)) ||| (1 <<< (countr_zero64 m)))))))))) ||| (1 <<< (countr_zero64 ((m &&& not64 ((1 <<< (63 - countl_zero64 m)) ||| (1 <<< (countr_zero64 m)))) &&& not64 ((1 <<< (63 - countl_zero64 (m &&& not64 ((1 <<< (63 - countl_zero64 m)) ||| (1 <<< (countr_zero64 m)))))) ||| (1 <<< (countr_zero64 (m &&& not64 ((1 <<< (63 - countl_zero64 m)) ||| (1 <<< (countr_zero64 m))))))))))))) 1 <<< 3)) = some (pextSpec v m)
  rw [countl_last (show maskBits m = b0 :: ([b1, b2, b3, b4, b5] ++ [b6]) from hl),
    countr_head hl]
  have hm1 : maskBits (m &&& not64 ((1 <<< b6) ||| (1 <<< b0))) = [b1, b2, b3, b4, b5] :=
    maskBits_clear_ends (show maskBits m = b0 :: ([b1, b2, b3, b4, b5] ++ [b6]) from hl)
  rw [countl_last (show maskBits (m &&& not64 ((1 <<< b6) ||| (1 <<< b0))) =
      b1 :: ([b2, b3, b4] ++ [b5]) from hm1), countr_head hm1]
  have hm2 : maskBits ((m &&& not64 ((1 <<< b6) ||| (1 <<< b0))) &&& not64 ((1 <<< b5) ||| (1 <<< b1))) = [b2, b3, b4] :=
    maskBits_clear_ends (show maskBits (m &&& not64 ((1 <<< b6) ||| (1 <<< b0))) =
      b1 :: ([b2, b3, b4] ++ [b5]) from hm1)
  rw [countl_last (show maskBits ((m &&& not64 ((1 <<< b6) ||| (1 <<< b0))) &&& not64 ((1 <<< b5) ||| (1 <<< b1))) =
      b2 :: ([b3] ++ [b4]) from hm2), countr_head hm2]
  have hm3 : maskBits (((m &&& not64 ((1 <<< b6) ||| (1 <<< b0))) &&& not64 ((1 <<< b5) ||| (1 <<< b1))) &&& not64 ((1 <<< b4) ||| (1 <<< b2))) = [b3] :=
    maskBits_clear_ends (show maskBits ((m &&& not64 ((1 <<< b6) ||| (1 <<< b0))) &&& not64 ((1 <<< b5) ||| (1 <<< b1))) =
      b2 :: ([b3] ++ [b4]) from hm2)
  rw [countr_head hm3]
  simp only [bextr_bit]
  rw [pextSpec, hl]
  exact congrArg some (assemble7 _ _ _ _ _ _ _)

/-- C5: for every 64-bit value and 64-bit mask of popcount at most 7,
the closed-form specialized cases of `pext64_emu` (switch cases 0
through 7, built from countl_zero/countr_zero, `bextr_u64` and
`blsr_u64`) return the reference PEXT result. -/
theorem claim_C5 (v m : Nat) (hm : m < 2 ^ 64) (hpc : popcount64 m ≤ 7) :
    pext64_emu v m = some (pextSpec v m) := by
  have h8 : popcount64 m = 0 ∨ popcount64 m = 1 ∨ popcount64 m = 2 ∨
      popcount64 m = 3 ∨ popcount64 m = 4 ∨ popcount64 m = 5 ∨
      popcount64 m = 6 ∨ popcount64 m = 7 := by omega
  rcases h8 with h | h | h | h | h | h | h | h
  · exact pext64_emu_pc0 v m h
  · exact pext64_emu_pc1 v m hm h
  · exact pext64_emu_pc2 v m hm h
  · exact pext64_emu_pc3 v m hm h
  · exact pext64_emu_pc4 v m hm h
  · exact pext64_emu_pc5 v m hm h
  · exact pext64_emu_pc6 v m hm h
  · exact pext64_emu_pc7 v m hm h

set_option maxRecDepth 10000 in
/-- Witness: C5 at a concrete 7-bit mask. -/
theorem claim_C5_witness :
    pext64_emu 0xABCDEF0123456789 0x8000004100200403 =
      some (pextSpec 0xABCDEF0123456789 0x8000004100200403) :=
  claim_C5 0xABCDEF0123456789 0x8000004100200403 (by norm_num) (by decide)

/-! ## Tuning loop: error characterization and selected mode -/

theorem except_bind_ok {α β : Type} {x : Except String α} {f : α → Except String β} {b : β}
    (h : x >>= f = .ok b) : ∃ a, x = .ok a ∧ f a = .ok b := by
  cases x with
  | error e => exact Except.noConfusion h
  | ok a => exact ⟨a, rfl, h⟩

theorem tuneGo_cons (mo : ExtractMode) (accu : Nat) (time : ℚ)
    (rest : List (ExtractMode × Nat × ℚ)) (bm : ExtractMode) (bt : Option ℚ) (ba : Nat)
    (h : (if ba = 0 then accu else ba) = accu) :
    tuneGo ((mo, accu, time) :: rest) bm bt ba =
      if (match bt with | none => true | some b => decide (time < b)) then
        tuneGo rest mo (some time) accu
      else tuneGo rest bm bt accu := by
  simp only [tuneGo]
  rw [h, if_neg (fun hc => hc rfl)]

theorem tuneGo_cons_err (mo : ExtractMode) (accu : Nat) (time : ℚ)
    (rest : List (ExtractMode × Nat × ℚ)) (bm : ExtractMode) (bt : Option ℚ) (ba : Nat)
    (h : (if ba = 0 then accu else ba) ≠ accu) :
    tuneGo ((mo, accu, time) :: rest) bm bt ba =
      .error "PEXT benchmarking with inconsistent results for different methods." := by
  simp only [tuneGo]
  rw [if_pos h]

/-- Error behaviour of the benchmarking loop: with a zero `best_accu`
the error fires iff some accumulator after the leading zeros differs
from the first nonzero one; with a nonzero `best_accu` it fires iff some
accumulator differs from it. -/
theorem tuneGo_error_iff : ∀ (meas : List (ExtractMode × Nat × ℚ)) (bm : ExtractMode)
    (bt : Option ℚ) (ba : Nat),
    (∃ e, tuneGo meas bm bt ba = .error e) ↔
      (if ba = 0 then
        ∃ a ∈ (meas.map (fun t => t.2.1)).dropWhile (fun a => a == 0),
          a ≠ ((meas.map (fun t => t.2.1)).dropWhile (fun a => a == 0)).headD 0
      else ∃ a ∈ meas.map (fun t => t.2.1), a ≠ ba) := by
  intro meas
  induction meas with
  | nil =>
    intro bm bt ba
    rw [tuneGo]
    constructor
    · rintro ⟨e, he⟩
      exact Except.noConfusion he
    · intro hbad
      by_cases hba : ba = 0
      · rw [if_pos hba] at hbad
        simp at hbad
      · rw [if_neg hba] at hbad
        simp at hbad
  | cons t rest ih =>
    rcases t with ⟨mo, accu, time⟩
    intro bm bt ba
    have hbranch : ∀ (c : Bool) (Q : Prop),
        ((∃ e, tuneGo rest mo (some time) accu = .error e) ↔ Q) →
        ((∃ e, tuneGo rest bm bt accu = .error e) ↔ Q) →
        ((∃ e, (if c then tuneGo rest mo (some time) accu
          else tuneGo rest bm bt accu) = .error e) ↔ Q) := by
      intro c Q h1 h2
      rcases c with _ | _
      · rw [if_neg Bool.false_ne_true]
        exact h2
      · rw [if_pos rfl]
        exact h1
    by_cases hba : ba = 0
    · subst hba
      rw [if_pos rfl]
      rw [tuneGo_cons mo accu time rest bm bt 0 (if_pos rfl)]
      simp only [List.map_cons]
      by_cases hacc : accu = 0
      · subst hacc
        have hdw : ((0 : Nat) :: rest.map (fun t => t.2.1)).dropWhile (fun a => a == 0) =
            (rest.map (fun t => t.2.1)).dropWhile (fun a => a == 0) := by
          rw [List.dropWhile_cons, if_pos (by decide)]
        rw [hdw]
        refine hbranch _ _ ?_ ?_
        · have := ih mo (some time) 0
          rwa [if_pos rfl] at this
        · have := ih bm bt 0
          rwa [if_pos rfl] at this
      · have hdw : (accu :: rest.map (fun t => t.2.1)).dropWhile (fun a => a == 0) =
            accu :: rest.map (fun t => t.2.1) := by
          rw [List.dropWhile_cons, if_neg (by simpa using hacc)]
        rw [hdw]
        have hrhs : (∃ a ∈ accu :: rest.map (fun t => t.2.1),
            a ≠ (accu :: rest.map (fun t => t.2.1)).headD 0) ↔
              ∃ a ∈ rest.map (fun t => t.2.1), a ≠ accu := by
          simp only [List.headD_cons, List.mem_cons]
          constructor
          · rintro ⟨a, rfl | hmem, hne⟩
            · exact absurd rfl hne
            · exact ⟨a, hmem, hne⟩
          · rintro ⟨a, hmem, hne⟩
            exact ⟨a, Or.inr hmem, hne⟩
        rw [hrhs]
        refine hbranch _ _ ?_ ?_
        · have := ih mo (some time) accu
          rwa [if_neg hacc] at this
        · have := ih bm bt accu
          rwa [if_neg hacc] at this
    · rw [if_neg hba]
      simp only [List.map_cons]
      by_cases heq : ba = accu
      · rw [tuneGo_cons mo accu time rest bm bt ba (by rw [if_neg hba]; exact heq)]
        have hrhs : (∃ a ∈ accu :: rest.map (fun t => t.2.1), a ≠ ba) ↔
            ∃ a ∈ rest.map (fun t => t.2.1), a ≠ ba := by
          simp only [List.mem_cons]
          constructor
          · rintro ⟨a, rfl | hmem, hne⟩
            · exact absurd heq.symm hne
            · exact ⟨a, hmem, hne⟩
          · rintro ⟨a, hmem, hne⟩
            exact ⟨a, Or.inr hmem, hne⟩
        rw [hrhs]
        refine hbranch _ _ ?_ ?_
        · have := ih mo (some time) accu
          rw [if_neg (by rw [← heq]; exact hba)] at this
          rw [this, heq]
        · have := ih bm bt accu
          rw [if_neg (by rw [← heq]; exact hba)] at this
          rw [this, heq]
      · rw [tuneGo_cons_err mo accu time rest bm bt ba
          (by rw [if_neg hba]; exact fun hc => heq hc)]
        constructor
        · intro _
          exact ⟨accu, List.mem_cons_self _ _, fun hc => heq hc.symm⟩
        · intro _
          exact ⟨_, rfl⟩

/-- The mode returned by the benchmarking loop is the incoming best mode
or one of the measured candidates. -/
theorem tuneGo_mode_mem : ∀ (meas : List (ExtractMode × Nat × ℚ)) (bm : ExtractMode)
    (bt : Option ℚ) (ba : Nat) (m : ExtractMode) (a : Nat),
    tuneGo meas bm bt ba = .ok (m, a) → m = bm ∨ m ∈ meas.map (fun t => t.1) := by
  intro meas
  induction meas with
  | nil =>
    intro bm bt ba m a h
    rw [tuneGo] at h
    rcases h with ⟨⟩
    exact Or.inl rfl
  | cons t rest ih =>
    rcases t with ⟨mo, accu, time⟩
    intro bm bt ba m a h
    by_cases hacc : (if ba = 0 then accu else ba) ≠ accu
    · rw [tuneGo_cons_err mo accu time rest bm bt ba hacc] at h
      exact Except.noConfusion h
    · push_neg at hacc
      rw [tuneGo_cons mo accu time rest bm bt ba hacc] at h
      rcases hcond : (match bt with | none => true | some b => decide (time < b)) with _ | _
      · rw [hcond, if_neg Bool.false_ne_true] at h
        rcases ih bm bt accu m a h with h1 | hmem
        · exact Or.inl h1
        · exact Or.inr (by simp [hmem])
      · rw [hcond, if_pos rfl] at h
        rcases ih mo (some time) accu m a h with rfl | hmem
        · exact Or.inr (by simp)
        · exact Or.inr (by simp [hmem])

/-- C6 (amended): the tuning benchmark raises the fatal consistency
error iff, after dropping the leading zero accumulator sums, some
candidate's accumulated sum differs from the first nonzero one.  A
candidate disagreeing with a first candidate whose sum is 0 is absorbed
by the `best_accu == 0` sentinel and is NOT detected. -/
theorem claim_C6 (meas : List (ExtractMode × Nat × ℚ)) :
    (∃ e, tune_to_fastest_mode_ meas = .error e) ↔
      ∃ a ∈ (meas.map (fun t => t.2.1)).dropWhile (fun a => a == 0),
        a ≠ ((meas.map (fun t => t.2.1)).dropWhile (fun a => a == 0)).headD 0 := by
  rw [tune_to_fastest_mode_]
  have := tuneGo_error_iff meas .kAutomatic none 0
  rwa [if_pos rfl] at this

/-- C6 counterexample: a first candidate with accumulated sum 0 and a
second candidate with sum 5 disagree, yet no error is raised and tuning
proceeds to select and bind a concrete mode. -/
theorem claim_C6_cex :
    tune_to_fastest_mode_ [(.kByteTable, 0, 1), (.kBlockTable, 5, 1)] =
      .ok (.kByteTable, 5) ∧
    (0 : Nat) ≠ 5 ∧
    ∃ st, AdaptivePext_construct_automatic 89
        [(.kByteTable, 0, 1), (.kBlockTable, 5, 1)] = .ok st ∧
      st.mode = .kByteTable := by
  refine ⟨rfl, by decide, ⟨_, rfl, rfl⟩⟩

/-- C8: whenever automatic construction completes normally, the bound
mode is not `kAutomatic` and is one of the measured candidate modes,
for every outcome of the timing measurements. -/
theorem claim_C8 (mask : Nat) (meas : List (ExtractMode × Nat × ℚ))
    (st : AdaptivePextState)
    (h : AdaptivePext_construct_automatic mask meas = .ok st) :
    st.mode ≠ ExtractMode.kAutomatic ∧ st.mode ∈ meas.map (fun t => t.1) := by
  rw [AdaptivePext_construct_automatic] at h
  obtain ⟨pb, hp, h⟩ := except_bind_ok h
  obtain ⟨p, ht, h⟩ := except_bind_ok h
  rcases p with ⟨bm, ba⟩
  obtain ⟨f, hs, h⟩ := except_bind_ok h
  have hst : st = { mode := bm, pextFunc := f, mask := mask, blockTable := pb } :=
    (Except.ok.inj h).symm
  subst hst
  have hbm : bm ≠ ExtractMode.kAutomatic := by
    intro hmode
    rw [hmode] at hs
    exact Except.noConfusion hs
  constructor
  · exact hbm
  · rw [tune_to_fastest_mode_] at ht
    rcases tuneGo_mode_mem meas .kAutomatic none 0 bm ba ht with h1 | hmem
    · exact absurd h1 hbm
    · exact hmem

/-- C9: invoking `operator()` on a default-constructed `AdaptivePext`
raises an error and produces no extraction result, whatever junk the
uninitialised members hold and whatever the value is. -/
theorem claim_C9 (junkMode : ExtractMode) (junkMask value : Nat) :
    AdaptivePext_apply (AdaptivePext_default junkMode junkMask) value =
      .error "Invalid call to operator() on default-constructed AdaptivePext instance" :=
  rfl

/-- Witness: C8 at a concrete mask and measurement list. -/
theorem claim_C8_witness :
    ({ mode := .kByteTable, pextFunc := .byteTable, mask := 89,
       blockTable := ⟨[1, 24, 64] ++ List.replicate 29 0,
                      [0, 2, 3] ++ List.replicate 29 0⟩ } : AdaptivePextState).mode ≠
        ExtractMode.kAutomatic ∧
    ({ mode := .kByteTable, pextFunc := .byteTable, mask := 89,
       blockTable := ⟨[1, 24, 64] ++ List.replicate 29 0,
                      [0, 2, 3] ++ List.replicate 29 0⟩ } : AdaptivePextState).mode ∈
      ([((ExtractMode.kByteTable), (1 : Nat), (1 : ℚ))].map (fun t => t.1)) :=
  claim_C8 89 [(.kByteTable, 1, 1)] _ rfl

/-! ## K-mer iteration: rolling window vs per-window re-extraction -/

theorem foldl_shift (enc : Char → Nat) : ∀ (t : List Char) (a : Nat),
    t.foldl (fun x ch => x * 4 + enc ch) a =
      a * 4 ^ t.length + t.foldl (fun x ch => x * 4 + enc ch) 0 := by
  intro t
  induction t with
  | nil => intro a; simp
  | cons c cs ih =>
    intro a
    rw [List.foldl_cons, List.foldl_cons, ih (a * 4 + enc c), ih (0 * 4 + enc c),
      List.length_cons, pow_succ]
    ring

theorem encode_bound (enc : Char → Nat) (henc : ∀ c, enc c < 4) :
    ∀ (w : List Char), w.foldl (fun x ch => x * 4 + enc ch) 0 < 4 ^ w.length := by
  intro w
  induction w with
  | nil => simp
  | cons c cs ih =>
    rw [List.foldl_cons, foldl_shift enc cs (0 * 4 + enc c), List.length_cons, pow_succ]
    have h1 := henc c
    have h2 : (0 * 4 + enc c) * 4 ^ cs.length ≤ 3 * 4 ^ cs.length :=
      Nat.mul_le_mul_right _ (by omega)
    omega

/-- The first-window build loop computes the straight 2-bit packing: no
wraparound occurs for windows of at most 32 characters. -/
theorem kmerBuild_eq_foldl (enc : Char → Nat) (henc : ∀ c, enc c < 4) :
    ∀ (w : List Char) (acc : Nat), 2 * w.length ≤ 64 → acc < 2 ^ (64 - 2 * w.length) →
      kmerBuild enc acc w = w.foldl (fun x ch => x * 4 + enc ch) acc := by
  intro w
  induction w with
  | nil => intro acc _ _; rfl
  | cons ch cs ih =>
    intro acc hlen hacc
    rw [List.length_cons] at hlen hacc
    have hpow : (2 : Nat) ^ (64 - 2 * cs.length) = 2 ^ (64 - 2 * (cs.length + 1)) * 4 := by
      rw [show (4 : Nat) = 2 ^ 2 from rfl, ← pow_add]
      congr 1
      omega
    have hacc4 : acc * 4 + enc ch < 2 ^ (64 - 2 * cs.length) := by
      have h1 := henc ch
      rw [hpow]
      omega
    have hmod : (acc <<< 2) % 2 ^ 64 = acc * 4 := by
      rw [Nat.shiftLeft_eq]
      have hlt : acc * 2 ^ 2 < 2 ^ 64 :=
        calc acc * 2 ^ 2 = acc * 4 := by norm_num
          _ ≤ acc * 4 + enc ch := Nat.le_add_right _ _
          _ < 2 ^ (64 - 2 * cs.length) := hacc4
          _ ≤ 2 ^ 64 := Nat.pow_le_pow_right (by omega) (by omega)
      rw [Nat.mod_eq_of_lt hlt]
      norm_num
    have hor : acc * 4 ||| enc ch = acc * 4 + enc ch := by
      have h := add_mul_pow_eq_or acc (show enc ch < 2 ^ 2 from henc ch)
      calc acc * 4 ||| enc ch = enc ch ||| acc * 2 ^ 2 := by rw [Nat.lor_comm]; norm_num
        _ = enc ch + acc * 2 ^ 2 := h.symm
        _ = acc * 4 + enc ch := by ring
    rw [kmerBuild, hmod, hor, List.foldl_cons]
    exact ih (acc * 4 + enc ch) (by omega) hacc4

theorem land_mask_mod (x n : Nat) : x &&& (2 ^ n - 1) = x % 2 ^ n := by
  apply Nat.eq_of_testBit_eq
  intro i
  rw [Nat.testBit_and, Nat.testBit_mod_two_pow, Nat.testBit_two_pow_sub_one, Bool.and_comm]

/-- One step of the sliding loop: shifting in the next character under
the 2k-bit mask advances the window by one position. -/
theorem slide_step (seq : List Char) (k i : Nat) (enc : Char → Nat)
    (henc : ∀ c, enc c < 4) (hk1 : 1 ≤ k) (hk : 2 * k ≤ 64)
    (hlt : k + i < seq.length) (c : Char) (hc : seq[k + i]? = some c) :
    (((((seq.drop i).take k).foldl (fun x ch => x * 4 + enc ch) 0 <<< 2) % 2 ^ 64) &&&
        (2 ^ (2 * k) - 1)) ||| enc c =
      ((seq.drop (i + 1)).take k).foldl (fun x ch => x * 4 + enc ch) 0 := by
  obtain ⟨j, rfl⟩ : ∃ j, k = j + 1 := ⟨k - 1, by omega⟩
  have hi : i < seq.length := by omega
  obtain ⟨T, hTdef⟩ : ∃ T, (seq.drop (i + 1)).take j = T := ⟨_, rfl⟩
  have hTlen : T.length = j := by
    rw [← hTdef, List.length_take, List.length_drop]
    exact Nat.min_eq_left (by omega)
  have hW : (seq.drop i).take (j + 1) = seq[i] :: T := by
    rw [List.drop_eq_getElem_cons hi, List.take_succ_cons, hTdef]
  have hW' : (seq.drop (i + 1)).take (j + 1) = T ++ [c] := by
    rw [List.take_succ, hTdef]
    congr 1
    rw [List.getElem?_drop, show i + 1 + j = j + 1 + i from by omega, hc]
    rfl
  obtain ⟨Tv, hTv⟩ : ∃ v, T.foldl (fun x ch => x * 4 + enc ch) 0 = v := ⟨_, rfl⟩
  have hTb : Tv < 4 ^ j := by
    rw [← hTv, ← hTlen]
    exact encode_bound enc henc T
  have hE : ((seq.drop i).take (j + 1)).foldl (fun x ch => x * 4 + enc ch) 0 =
      enc (seq[i]) * 4 ^ j + Tv := by
    rw [hW, List.foldl_cons, foldl_shift enc T (0 * 4 + enc (seq[i])), hTlen, hTv]
    ring
  have hpow4 : (4 : Nat) ^ (j + 1) = 2 ^ (2 * (j + 1)) := by
    rw [show (4 : Nat) = 2 ^ 2 from rfl, ← pow_mul]
  rw [hE, hW', List.foldl_append, hTv]
  show ((((enc (seq[i]) * 4 ^ j + Tv) <<< 2) % 2 ^ 64) &&&
      (2 ^ (2 * (j + 1)) - 1)) ||| enc c = Tv * 4 + enc c
  rw [Nat.shiftLeft_eq, land_mask_mod,
    Nat.mod_mod_of_dvd _ (pow_dvd_pow 2 (by omega : 2 * (j + 1) ≤ 64))]
  have hsimp : (enc (seq[i]) * 4 ^ j + Tv) * 2 ^ 2 =
      Tv * 4 + enc (seq[i]) * 2 ^ (2 * (j + 1)) := by
    rw [← hpow4, pow_succ]
    ring
  rw [hsimp, Nat.add_mul_mod_self_right]
  have hTv4 : Tv * 4 < 2 ^ (2 * (j + 1)) := by
    rw [← hpow4, pow_succ]
    omega
  rw [Nat.mod_eq_of_lt hTv4]
  have hor := add_mul_pow_eq_or Tv (show enc c < 2 ^ 2 from henc c)
  calc Tv * 4 ||| enc c = enc c ||| Tv * 2 ^ 2 := by rw [Nat.lor_comm]; norm_num
    _ = enc c + Tv * 2 ^ 2 := hor.symm
    _ = Tv * 4 + enc c := by ring

/-- The sliding loop emits exactly the successive windows. -/
theorem kmerSlide_spec (seq : List Char) (k : Nat) (enc : Char → Nat)
    (henc : ∀ c, enc c < 4) (hk1 : 1 ≤ k) (hk : 2 * k ≤ 64) :
    ∀ (rest : List Char) (i : Nat), rest = seq.drop (k + i) → k + i ≤ seq.length →
      kmerSlide enc (2 ^ (2 * k) - 1)
          (((seq.drop i).take k).foldl (fun x ch => x * 4 + enc ch) 0) rest =
        (List.range rest.length).map
          (fun j => ((seq.drop (i + 1 + j)).take k).foldl (fun x ch => x * 4 + enc ch) 0) := by
  intro rest
  induction rest with
  | nil =>
    intro i _ _
    simp [kmerSlide]
  | cons c cs ih =>
    intro i hrest hki
    have hlt : k + i < seq.length := by
      by_contra hge
      rw [List.drop_eq_nil_of_le (by omega)] at hrest
      exact List.noConfusion hrest
    have hdrop := List.drop_eq_getElem_cons hlt
    rw [← hrest] at hdrop
    injection hdrop with hc hcs
    simp only [kmerSlide]
    have hkey := slide_step seq k i enc henc hk1 hk hlt c
      (by first
        | (rw [hc]; exact List.getElem?_eq_getElem hlt)
        | rw [hc])
    rw [hkey]
    have hih := ih (i + 1)
      (hcs.trans (by rw [show k + i + 1 = k + (i + 1) from by omega])) (by omega)
    rw [hih]
    rw [List.length_cons, List.range_succ_eq_map, List.map_cons, List.map_map]
    have htail : (List.range cs.length).map
        (fun q => ((seq.drop (i + 1 + 1 + q)).take k).foldl (fun x ch => x * 4 + enc ch) 0) =
      (List.range cs.length).map ((fun j => ((seq.drop (i + 1 + j)).take k).foldl
        (fun x ch => x * 4 + enc ch) 0) ∘ Nat.succ) := by
      apply List.map_congr_left
      intro q hq
      have hidx : i + 1 + 1 + q = i + 1 + (q + 1) := by omega
      simp only [Function.comp, Nat.succ_eq_add_one, hidx]
    rw [htail]

/-- The re-extraction loop emits one freshly built window per position. -/
theorem kmerReextractGo_map (enc : Char → Nat) (k : Nat) :
    ∀ (count : Nat) (seq : List Char),
      kmerReextractGo enc k seq count =
        (List.range count).map (fun i => kmerBuild enc 0 ((seq.drop i).take k)) := by
  intro count
  induction count with
  | zero => intro seq; rfl
  | succ n ih =>
    intro seq
    show kmerBuild enc 0 (seq.take k) :: kmerReextractGo enc k (seq.drop 1) n =
      (List.range (n + 1)).map (fun i => kmerBuild enc 0 ((seq.drop i).take k))
    rw [ih (seq.drop 1), List.range_succ_eq_map, List.map_cons, List.map_map]
    have htail : (List.range n).map
        (fun q => kmerBuild enc 0 (((seq.drop 1).drop q).take k)) =
      (List.range n).map ((fun i => kmerBuild enc 0 ((seq.drop i).take k)) ∘ Nat.succ) := by
      apply List.map_congr_left
      intro q hq
      simp only [Function.comp, Nat.succ_eq_add_one, List.drop_drop, Nat.add_comm 1 q]
    rw [htail, List.drop_zero]

theorem kmer_mask_eq (k : Nat) (hk32 : k ≤ 32) :
    (if k = 32 then 2 ^ 64 - 1 else (1 <<< (2 * k)) - 1) = 2 ^ (2 * k) - 1 := by
  by_cases h : k = 32
  · subst h
    norm_num
  · rw [if_neg h, Nat.one_shiftLeft]

/-- The rolling-window iterator emits exactly the `n - k + 1` windows in
order, each as its 2-bit packing. -/
theorem for_each_kmer_2bit_eq_spec (seq : List Char) (k : Nat) (enc : Char → Nat)
    (henc : ∀ c, enc c < 4) (hk1 : 1 ≤ k) (hk32 : k ≤ 32) (hlen : k ≤ seq.length) :
    for_each_kmer_2bit seq k enc =
      .ok ((List.range (seq.length - k + 1)).map
        (fun i => ((seq.drop i).take k).foldl (fun x ch => x * 4 + enc ch) 0)) := by
  simp only [for_each_kmer_2bit]
  rw [if_neg (by omega), if_neg (by omega), kmer_mask_eq k hk32]
  have hfirst : kmerBuild enc 0 (seq.take k) =
      (seq.take k).foldl (fun x ch => x * 4 + enc ch) 0 := by
    apply kmerBuild_eq_foldl enc henc
    · rw [List.length_take]
      have := Nat.min_le_left k seq.length
      omega
    · exact Nat.pos_pow_of_pos _ (by omega)
  have h0 : seq.take k = (seq.drop 0).take k := by rw [List.drop_zero]
  rw [hfirst, h0]
  rw [kmerSlide_spec seq k enc henc hk1 (by omega) (seq.drop k) 0 (by rw [Nat.add_zero])
    (by omega)]
  rw [List.length_drop, List.range_succ_eq_map, List.map_cons, List.map_map]
  have htail : (List.range (seq.length - k)).map
      (fun q => ((seq.drop (0 + 1 + q)).take k).foldl (fun x ch => x * 4 + enc ch) 0) =
    (List.range (seq.length - k)).map ((fun i => ((seq.drop i).take k).foldl
      (fun x ch => x * 4 + enc ch) 0) ∘ Nat.succ) := by
    apply List.map_congr_left
    intro q hq
    have hidx : 0 + 1 + q = q + 1 := by omega
    simp only [Function.comp, Nat.succ_eq_add_one, hidx]
  rw [htail]

/-- The re-extraction iterator emits the same windows. -/
theorem for_each_kmer_2bit_reextract_eq_spec (seq : List Char) (k : Nat) (enc : Char → Nat)
    (henc : ∀ c, enc c < 4) (hk1 : 1 ≤ k) (hk32 : k ≤ 32) (hlen : k ≤ seq.length) :
    for_each_kmer_2bit_reextract seq k enc =
      .ok ((List.range (seq.length - k + 1)).map
        (fun i => ((seq.drop i).take k).foldl (fun x ch => x * 4 + enc ch) 0)) := by
  simp only [for_each_kmer_2bit_reextract]
  rw [if_neg (by omega), if_neg (by omega), kmerReextractGo_map]
  congr 1
  apply List.map_congr_left
  intro i hi
  apply kmerBuild_eq_foldl enc henc
  · rw [List.length_take]
    have := Nat.min_le_left k (seq.drop i).length
    omega
  · exact Nat.pos_pow_of_pos _ (by omega)

/-- C10: for every sequence, every `k` in `[1, 32]` and every 2-bit
encoding, the rolling-window iterator emits exactly the same k-mer list
as the per-position re-extraction iterator: the `n - k + 1` windows in
order, each packed into the lowest `2k` bits; both raise an error for
`k = 0` or `k > 32`, and both emit nothing when the sequence is shorter
than `k`. -/
theorem claim_C10 (seq : List Char) (k : Nat) (enc : Char → Nat) (henc : ∀ c, enc c < 4) :
    for_each_kmer_2bit seq k enc = for_each_kmer_2bit_reextract seq k enc ∧
    ((k = 0 ∨ 32 < k) → ∃ e, for_each_kmer_2bit seq k enc = .error e ∧
      for_each_kmer_2bit_reextract seq k enc = .error e) ∧
    (1 ≤ k → k ≤ 32 → seq.length < k → for_each_kmer_2bit seq k enc = .ok [] ∧
      for_each_kmer_2bit_reextract seq k enc = .ok []) ∧
    (1 ≤ k → k ≤ 32 → k ≤ seq.length →
      for_each_kmer_2bit seq k enc =
        .ok ((List.range (seq.length - k + 1)).map
          (fun i => ((seq.drop i).take k).foldl (fun x ch => x * 4 + enc ch) 0)) ∧
      ∀ x ∈ (List.range (seq.length - k + 1)).map
          (fun i => ((seq.drop i).take k).foldl (fun x ch => x * 4 + enc ch) 0),
        x < 2 ^ (2 * k)) := by
  refine ⟨?_, ?_, ?_, ?_⟩
  · by_cases h1 : k = 0 ∨ 32 < k
    · rw [for_each_kmer_2bit, for_each_kmer_2bit_reextract, if_pos h1, if_pos h1]
    · by_cases h2 : seq.length < k
      · rw [for_each_kmer_2bit, for_each_kmer_2bit_reextract, if_neg h1, if_neg h1,
          if_pos h2, if_pos h2]
      · rw [for_each_kmer_2bit_eq_spec seq k enc henc (by omega) (by omega) (by omega),
          for_each_kmer_2bit_reextract_eq_spec seq k enc henc (by omega) (by omega)
            (by omega)]
  · intro h1
    exact ⟨"Invalid call to k-mer extraction with k not in [1, 32]",
      by rw [for_each_kmer_2bit, if_pos h1],
      by rw [for_each_kmer_2bit_reextract, if_pos h1]⟩
  · intro hk1 hk32 h2
    constructor
    · rw [for_each_kmer_2bit, if_neg (by omega), if_pos h2]
    · rw [for_each_kmer_2bit_reextract, if_neg (by omega), if_pos h2]
  · intro hk1 hk32 hlen
    refine ⟨for_each_kmer_2bit_eq_spec seq k enc henc hk1 hk32 hlen, ?_⟩
    intro x hx
    rw [List.mem_map] at hx
    obtain ⟨i, _, rfl⟩ := hx
    have hb := encode_bound enc henc ((seq.drop i).take k)
    have hlen2 : ((seq.drop i).take k).length ≤ k := by
      rw [List.length_take]
      exact Nat.min_le_left _ _
    calc ((seq.drop i).take k).foldl (fun x ch => x * 4 + enc ch) 0
        < 4 ^ ((seq.drop i).take k).length := hb
      _ ≤ 4 ^ k := Nat.pow_le_pow_right (by omega) hlen2
      _ = 2 ^ (2 * k) := by rw [show (4 : Nat) = 2 ^ 2 from rfl, ← pow_mul]

/-- Witness: C10 at a concrete sequence, k and encoding. -/
theorem claim_C10_witness :
    (for_each_kmer_2bit "ACGTAC".toList 3 (fun c => c.toNat % 4) =
      for_each_kmer_2bit_reextract "ACGTAC".toList 3 (fun c => c.toNat % 4)) ∧
    (((3 : Nat) = 0 ∨ 32 < 3) →
      ∃ e, for_each_kmer_2bit "ACGTAC".toList 3 (fun c => c.toNat % 4) = .error e ∧
        for_each_kmer_2bit_reextract "ACGTAC".toList 3 (fun c => c.toNat % 4) = .error e) ∧
    (1 ≤ 3 → 3 ≤ 32 → "ACGTAC".toList.length < 3 →
      for_each_kmer_2bit "ACGTAC".toList 3 (fun c => c.toNat % 4) = .ok [] ∧
      for_each_kmer_2bit_reextract "ACGTAC".toList 3 (fun c => c.toNat % 4) = .ok []) ∧
    (1 ≤ 3 → 3 ≤ 32 → 3 ≤ "ACGTAC".toList.length →
      for_each_kmer_2bit "ACGTAC".toList 3 (fun c => c.toNat % 4) =
        .ok ((List.range ("ACGTAC".toList.length - 3 + 1)).map
          (fun i => (("ACGTAC".toList.drop i).take 3).foldl
            (fun x ch => x * 4 + ch.toNat % 4) 0)) ∧
      ∀ x ∈ (List.range ("ACGTAC".toList.length - 3 + 1)).map
          (fun i => (("ACGTAC".toList.drop i).take 3).foldl
            (fun x ch => x * 4 + ch.toNat % 4) 0),
        x < 2 ^ (2 * 3)) :=
  claim_C10 "ACGTAC".toList 3 (fun c => c.toNat % 4)
    (fun c => Nat.mod_lt _ (by norm_num))

end Fisk

